import Mathlib

/-!
Verification of the cronrange package (Go) against its specification.

The embedding models Go strings as lists of characters (`Str`), Go's
`time.Duration` values for times-of-day as natural numbers counting seconds
since midnight (every duration the code constructs is a whole number of
seconds, and all arithmetic in the code scales uniformly), and Go's
`map[int]bool` value sets as `Finset Int`.  Each definition below is a
direct translation of the correspondingly named Go function from
`rule.go` / `cronrange.go`.
-/

namespace Cronrange

/-- A Go string, modelled as its list of characters. -/
abbrev Str := List Char

/-- Go `unicode.IsSpace` restricted to the ASCII / Latin-1 space characters
(space, tab, newline, vertical tab, form feed, carriage return, NEL, NBSP);
the exotic Unicode space code points are not modelled. -/
def goIsSpace (c : Char) : Bool :=
  c.toNat = 32 || c.toNat = 9 || c.toNat = 10 || c.toNat = 11 ||
  c.toNat = 12 || c.toNat = 13 || c.toNat = 133 || c.toNat = 160

/-- Split a string around every character satisfying `p`; the result always
has one more entry than the number of separator characters.  With
`p = (· = sep)` this is Go `strings.Split(s, sep)` for a one-character
separator. -/
def splitOnP (p : Char → Bool) : Str → List Str
  | [] => [[]]
  | c :: rest =>
    match splitOnP p rest with
    | [] => [[]]
    | t :: ts => if p c then [] :: t :: ts else (c :: t) :: ts

/-- Go `strings.Split(s, sep)` for a single-character separator. -/
def splitOnChar (sep : Char) (s : Str) : List Str :=
  splitOnP (fun c => c = sep) s

/-- Go `strings.Fields`: split around runs of whitespace, dropping empty
pieces. -/
def goFields (s : Str) : List Str :=
  (splitOnP goIsSpace s).filter (fun x => !x.isEmpty)

/-- Go `strings.TrimSpace`. -/
def goTrimSpace (s : Str) : Str :=
  ((s.dropWhile goIsSpace).reverse.dropWhile goIsSpace).reverse

/-- Is `c` a decimal digit? -/
def isDig (c : Char) : Bool :=
  48 ≤ c.toNat && c.toNat ≤ 57

/-- Numeric value of a digit character. -/
def digitVal (c : Char) : Nat := c.toNat - 48

/-- Value of a string of digits, most significant first. -/
def digitsVal (s : Str) : Nat :=
  s.foldl (fun a c => a * 10 + digitVal c) 0

/-- Parse a nonempty all-digit string to a natural number. -/
def atoiDigits (s : Str) : Option Nat :=
  if !s.isEmpty && s.all isDig then some (digitsVal s) else none

/-- Go `strconv.Atoi`: an optional sign followed by at least one digit.
The Go function also errors on 64-bit overflow; this model is unbounded,
which does not change the acceptance behaviour of any caller in this
package because every accepted value is compared against small bounds. -/
def atoi (s : Str) : Option Int :=
  match s with
  | [] => none
  | c :: rest =>
    if c = '+' then (atoiDigits rest).map Int.ofNat
    else if c = '-' then (atoiDigits rest).map (fun n => -(Int.ofNat n))
    else (atoiDigits (c :: rest)).map Int.ofNat

/-- The decimal digit character for `n % 10`-style values. -/
def digitChar (n : Nat) : Char :=
  ⟨⟨⟨48 + n % 10, by omega⟩⟩, Or.inl (by
    show (48 + n % 10 : Nat) < 55296
    omega)⟩

/-- Decimal rendering, fuelled so that it reduces by kernel evaluation;
`fuel` bounds the number of digits. -/
def natToCharsAux : Nat → Nat → Str
  | _, 0 => []
  | n, fuel + 1 =>
    if n < 10 then [digitChar n]
    else natToCharsAux (n / 10) fuel ++ [digitChar (n % 10)]

/-- Decimal rendering of a natural number (Go `fmt` verb `%d` on a
non-negative value). -/
def natToChars (n : Nat) : Str :=
  natToCharsAux n (n + 1)

/-- Go `%d` on an `int`. -/
def intToChars (i : Int) : Str :=
  if i < 0 then '-' :: natToChars (-i).toNat else natToChars i.toNat

/-- Go `%02d` on a non-negative value. -/
def pad2 (n : Nat) : Str :=
  if n < 10 then '0' :: natToChars n else natToChars n

/-- Go `strings.Join` with a single-character separator. -/
def joinChar (sep : Char) : List Str → Str
  | [] => []
  | [x] => x
  | x :: y :: ys => x ++ sep :: joinChar sep (y :: ys)

/-- Go `strings.Join` with an arbitrary separator string. -/
def joinSep (sep : Str) : List Str → Str
  | [] => []
  | [x] => x
  | x :: y :: ys => x ++ sep ++ joinSep sep (y :: ys)

/-- Type `TimeRange` from rule.go: a time period within a day.  `start` and
`endT` (Go field `end`) count seconds since midnight. -/
structure TimeRange where
  start : Nat
  endT : Nat
  all : Bool
  overnight : Bool
  hasSeconds : Bool
deriving DecidableEq

/-- Type `Field` from rule.go: a set of allowed integers (Go `map[int]bool`),
or everything when `all` is set. -/
structure Field where
  values : Finset Int
  all : Bool
deriving DecidableEq

/-- Type `Rule` from rule.go: one time range plus day-of-week, day-of-month and
month fields. -/
structure Rule where
  timeRange : TimeRange
  dow : Field
  dom : Field
  month : Field
deriving DecidableEq

/-- Function `parseTime` from rule.go: `HH:MM` or `HH:MM:SS`, hours 0-23, minutes
and seconds 0-59.  Returns seconds since midnight and whether a seconds
component was present. -/
def parseTime (s : Str) : Option (Nat × Bool) :=
  let parts := splitOnChar ':' s
  if parts.length < 2 || parts.length > 3 then none
  else do
    let hours ← atoi (parts.getD 0 [])
    let minutes ← atoi (parts.getD 1 [])
    let seconds ← if parts.length = 3 then atoi (parts.getD 2 []) else some 0
    if hours < 0 || hours > 23 || minutes < 0 || minutes > 59 ||
       seconds < 0 || seconds > 59 then none
    else
      some (hours.toNat * 3600 + minutes.toNat * 60 + seconds.toNat,
        decide (parts.length = 3))

/-- Function `parseTimeRange` from rule.go. -/
def parseTimeRange (s : Str) : Option TimeRange :=
  if s = ['*'] then some ⟨0, 0, true, false, false⟩
  else
    let parts := splitOnChar '-' s
    if parts.length ≠ 2 then none
    else do
      let s1 ← parseTime (parts.getD 0 [])
      let s2 ← parseTime (parts.getD 1 [])
      some ⟨s1.1, s2.1, false, decide (s2.1 < s1.1), s1.2 || s2.2⟩

/-- One iteration of the `parseField` loop body from rule.go: process a
single comma-separated item, extending the accumulated value set. -/
def parseFieldItem (mn mx : Int) (vals : Finset Int) (r : Str) :
    Option (Finset Int) :=
  if r.contains '-' then
    let parts := splitOnChar '-' r
    if parts.length ≠ 2 then none
    else do
      let start ← atoi (parts.getD 0 [])
      let endv ← atoi (parts.getD 1 [])
      if start < mn || endv > mx || start > endv then none
      else some (vals ∪ Finset.Icc start endv)
  else do
    let v ← atoi r
    if v < mn || v > mx then none else some (insert v vals)

/-- The `parseField` loop from rule.go, folded over the item list. -/
def parseFieldAux (mn mx : Int) : List Str → Finset Int → Option (Finset Int)
  | [], vals => some vals
  | r :: rest, vals => do
    let vals2 ← parseFieldItem mn mx vals r
    parseFieldAux mn mx rest vals2

/-- Function `parseField` from rule.go. -/
def parseField (s : Str) (mn mx : Int) : Option Field :=
  if s = ['*'] then some ⟨∅, true⟩
  else do
    let vals ← parseFieldAux mn mx (splitOnChar ',' s) ∅
    some ⟨vals, false⟩

/-- Function `parseRule` from rule.go: exactly four whitespace-separated tokens
`time dow dom month`. -/
def parseRule (rule : Str) : Option Rule :=
  let parts := goFields rule
  if parts.length ≠ 4 then none
  else do
    let timeRange ← parseTimeRange (parts.getD 0 [])
    let dow ← parseField (parts.getD 1 []) 0 6
    let dom ← parseField (parts.getD 2 []) 1 31
    let month ← parseField (parts.getD 3 []) 1 12
    some ⟨timeRange, dow, dom, month⟩

/-- The loop of `Parse` from cronrange.go over the semicolon-separated
segments, in order, aborting at the first failure. -/
def parseSegs : List Str → Option (List Rule)
  | [] => some []
  | r :: rest => do
    let rule ← parseRule (goTrimSpace r)
    let rs ← parseSegs rest
    some (rule :: rs)

/-- Function `Parse` from cronrange.go. -/
def Parse (expr : Str) : Option (List Rule) :=
  parseSegs (splitOnChar ';' expr)

/-- An instant as the matcher sees it: the Go `time.Time` accessor values
used by `Rule.matches` (month 1-12, day 1-31, weekday 0-6 with 0 = Sunday,
hour, minute, second). -/
structure Instant where
  month : Nat
  day : Nat
  weekday : Nat
  hour : Nat
  minute : Nat
  second : Nat
deriving DecidableEq

/-- The instant's seconds-since-midnight value. -/
def secondsOfDay (t : Instant) : Nat :=
  t.hour * 3600 + t.minute * 60 + t.second

/-- Function `Field.matches` from rule.go: `f.all || f.values[val]`. -/
def Field.matches (f : Field) (val : Int) : Bool :=
  f.all || decide (val ∈ f.values)

/-- Function `Rule.matches` from rule.go (second revision, with overnight
handling). -/
def Rule.matches (r : Rule) (t : Instant) : Bool :=
  if !(r.month.matches (t.month : Int)) then false
  else if !(r.dom.matches (t.day : Int)) then false
  else if !(r.dow.matches (t.weekday : Int)) then false
  else if r.timeRange.all then true
  else
    let currentTime := secondsOfDay t
    if r.timeRange.overnight then
      decide (currentTime ≥ r.timeRange.start) ||
      decide (currentTime ≤ r.timeRange.endT)
    else
      decide (currentTime ≥ r.timeRange.start) &&
      decide (currentTime ≤ r.timeRange.endT)

/-- Function `Match` from cronrange.go: true iff any rule matches (the Go loop
returns at the first match). -/
def Match (rules : List Rule) (t : Instant) : Bool :=
  rules.any (fun r => r.matches t)

/-- Function `TimeRange.String` from rule.go. -/
def TimeRange.String (tr : TimeRange) : Str :=
  if tr.all then ['*']
  else
    let startH := tr.start / 3600
    let startM := tr.start % 3600 / 60
    let startS := tr.start % 60
    let endH := tr.endT / 3600
    let endM := tr.endT % 3600 / 60
    let endS := tr.endT % 60
    if tr.hasSeconds then
      pad2 startH ++ ':' :: (pad2 startM ++ ':' :: (pad2 startS ++
        '-' :: (pad2 endH ++ ':' :: (pad2 endM ++ ':' :: pad2 endS))))
    else
      pad2 startH ++ ':' :: (pad2 startM ++
        '-' :: (pad2 endH ++ ':' :: pad2 endM))

/-- One run of consecutive values rendered by `Field.String`: a bare
integer for a run of one, `a-b` otherwise. -/
def runChars (start prev : Int) : Str :=
  if start = prev then intToChars start
  else intToChars start ++ '-' :: intToChars prev

/-- The run-length-encoding loop of `Field.String` from rule.go.  `start`
and `prev` are the loop variables; the list argument is the remaining
sorted values. -/
def encodeRuns (start prev : Int) : List Int → List Str
  | [] => [runChars start prev]
  | v :: rest =>
    if v ≠ prev + 1 then runChars start prev :: encodeRuns v v rest
    else encodeRuns start v rest

/-- Ascending list of the values stored in a `Field` (Go collects the map
keys and runs `sort.Ints`).  Defined by insertion sort on any list
representing the set; well defined because a sorted permutation is
unique. -/
def Field.sortedValues (f : Field) : List Int :=
  Quot.liftOn f.values.val (fun l => List.insertionSort (· ≤ ·) l)
    (fun a b h =>
      List.eq_of_perm_of_sorted
        ((List.perm_insertionSort _ a).trans
          (h.trans (List.perm_insertionSort _ b).symm))
        (List.sorted_insertionSort _ a) (List.sorted_insertionSort _ b))

/-- Function `Field.String` from rule.go: `*` for the all marker or an empty set,
otherwise the sorted values run-length encoded and joined with commas
(the loop starts with `start = prev = vals[0]` and consumes the tail). -/
def Field.String (f : Field) : Str :=
  if f.all then ['*']
  else if f.sortedValues.isEmpty then ['*']
  else
    joinChar ','
      (encodeRuns (f.sortedValues.headD 0) (f.sortedValues.headD 0)
        f.sortedValues.tail)

/-- Function `Rule.String` from rule.go: the four parts joined by single spaces. -/
def Rule.String (r : Rule) : Str :=
  r.timeRange.String ++ ' ' :: (r.dow.String ++ ' ' :: (r.dom.String ++
    ' ' :: r.month.String))

/-- A rule list rendered as one expression: `Rule.String` of each rule
joined by `"; "` (as the package's tests and `ParseFromReader` users
re-serialize a parsed expression). -/
def rulesString (rs : List Rule) : Str :=
  joinSep [';', ' '] (rs.map Rule.String)

/-- Go `bufio.ScanLines` drops one carriage return at the end of a line. -/
def dropCR (l : Str) : Str :=
  if l.getLast? = some '\r' then l.dropLast else l

/-- The scanner loop of `ParseFromReader` from cronrange.go over the
newline-separated lines: blank lines (after trimming) are skipped, each
other line is parsed as a full expression and its rules appended in
order, and the first failing line aborts the whole load. -/
def readLines : List Str → Option (List Rule)
  | [] => some []
  | l :: rest =>
    let rule := goTrimSpace (dropCR l)
    if rule.isEmpty then readLines rest
    else do
      let rs ← Parse rule
      let more ← readLines rest
      some (rs ++ more)

/-- Function `ParseFromReader` from cronrange.go, with the reader's full contents
as input: an empty stream yields the empty rule list. -/
def ParseFromReader (input : Str) : Option (List Rule) :=
  if input.isEmpty then some []
  else readLines (splitOnChar '\n' input)

/-- Invariant of every `TimeRange` produced by `parseTimeRange`: an
all-day range is the zero value with the flag, and otherwise the
boundaries are valid times of day, `overnight` is determined by the
boundaries, and absent a seconds component the boundaries are whole
minutes. -/
def TRinv (tr : TimeRange) : Prop :=
  (tr.all = true → tr = ⟨0, 0, true, false, false⟩) ∧
  (tr.all = false →
    tr.start ≤ 86399 ∧ tr.endT ≤ 86399 ∧
    tr.overnight = decide (tr.endT < tr.start) ∧
    (tr.hasSeconds = false → tr.start % 60 = 0 ∧ tr.endT % 60 = 0))

/-- Invariant of every `Field` produced by `parseField` with bounds
`[mn, mx]`: the all marker carries an empty set, and an explicit field is
a nonempty set of non-negative values inside the bounds. -/
def Finv (mn mx : Int) (f : Field) : Prop :=
  (f.all = true → f.values = ∅) ∧
  (f.all = false →
    f.values.Nonempty ∧ ∀ v ∈ f.values, mn ≤ v ∧ v ≤ mx ∧ 0 ≤ v)

/-- Invariant of every `Rule` produced by `parseRule`. -/
def Rinv (r : Rule) : Prop :=
  TRinv r.timeRange ∧ Finv 0 6 r.dow ∧ Finv 1 31 r.dom ∧ Finv 1 12 r.month

/-- The field-match relation as the specification words it: an all-values
Field matches every integer, an explicit Field matches by set
membership. -/
def specFieldMatches (f : Field) (n : Int) : Prop :=
  f.all = true ∨ n ∈ f.values

/-- The time-range match relation as the specification words it: an
all-day TimeRange matches every instant; an overnight TimeRange
(`end < start`) matches iff `v ≥ start` or `v ≤ end`; an ordinary one
matches iff `start ≤ v ≤ end`, boundaries inclusive. -/
def specTimeRangeMatches (tr : TimeRange) (v : Nat) : Prop :=
  tr.all = true ∨
    (if tr.endT < tr.start then v ≥ tr.start ∨ v ≤ tr.endT
     else tr.start ≤ v ∧ v ≤ tr.endT)

/-- A valid time-of-day sub-token as the specification words it: exactly
2 or 3 colon-separated integer components, hours 0-23, minutes and
seconds 0-59. -/
def validTimeToken (ts : Str) : Prop :=
  ((splitOnChar ':' ts).length = 2 ∨ (splitOnChar ':' ts).length = 3) ∧
  (∃ hv : Int, atoi ((splitOnChar ':' ts).getD 0 []) = some hv ∧
    0 ≤ hv ∧ hv ≤ 23) ∧
  (∃ mv : Int, atoi ((splitOnChar ':' ts).getD 1 []) = some mv ∧
    0 ≤ mv ∧ mv ≤ 59) ∧
  ((splitOnChar ':' ts).length = 3 →
    ∃ sv : Int, atoi ((splitOnChar ':' ts).getD 2 []) = some sv ∧
      0 ≤ sv ∧ sv ≤ 59)

/-- The rule `Parse` produces for `"09:00-17:00 * * *"`. -/
def ruleDay : Rule :=
  ⟨⟨32400, 61200, false, false, false⟩, ⟨∅, true⟩, ⟨∅, true⟩, ⟨∅, true⟩⟩

/-- The rule `Parse` produces for `"23:00-02:00 * * *"` (overnight). -/
def ruleNight : Rule :=
  ⟨⟨82800, 7200, false, true, false⟩, ⟨∅, true⟩, ⟨∅, true⟩, ⟨∅, true⟩⟩

/-- The rules `Parse` produces for `"17:20-21:35 1-5 * *; * 0,6 * *"`. -/
def rulesPair : List Rule :=
  [⟨⟨62400, 77700, false, false, false⟩, ⟨∅ ∪ Finset.Icc 1 5, false⟩,
    ⟨∅, true⟩, ⟨∅, true⟩⟩,
   ⟨⟨0, 0, true, false, false⟩, ⟨insert 6 (insert 0 ∅), false⟩,
    ⟨∅, true⟩, ⟨∅, true⟩⟩]

/-- The field `parseField` produces for `"1,3-3,5"` with bounds 1-31:
the set of values 1, 3 and 5. -/
def fieldEx : Field := ⟨insert 5 (insert 1 ∅ ∪ Finset.Icc 3 3), false⟩

/-!  ## Lemmas about digits and decimal rendering -/

theorem digitChar_toNat (n : Nat) : (digitChar n).toNat = 48 + n % 10 := rfl

theorem isDig_digitChar (n : Nat) : isDig (digitChar n) = true := by
  simp [isDig, digitChar_toNat]
  omega

theorem digitVal_digitChar (n : Nat) (h : n < 10) :
    digitVal (digitChar n) = n := by
  simp [digitVal, digitChar_toNat]
  omega

theorem natToCharsAux_eq (n : Nat) :
    ∀ fuel, n < fuel → natToCharsAux n fuel = natToChars n := by
  induction n using Nat.strong_induction_on with
  | _ n ih =>
    intro fuel hf
    obtain ⟨f, rfl⟩ : ∃ f, fuel = f + 1 := ⟨fuel - 1, by omega⟩
    by_cases h10 : n < 10
    · simp [natToCharsAux, natToChars, h10]
    · have hdiv : n / 10 < n := by omega
      have h1 : natToCharsAux (n / 10) f = natToChars (n / 10) :=
        ih (n / 10) hdiv f (by omega)
      have h2 : natToCharsAux (n / 10) n = natToChars (n / 10) :=
        ih (n / 10) hdiv n hdiv
      simp only [natToCharsAux, natToChars, h10, if_false]
      rw [h1, h2]

theorem natToChars_eq (n : Nat) :
    natToChars n =
      if n < 10 then [digitChar n]
      else natToChars (n / 10) ++ [digitChar (n % 10)] := by
  by_cases h : n < 10
  · simp [natToChars, natToCharsAux, h]
  · show natToCharsAux n (n + 1) = _
    simp only [natToCharsAux, h, if_false]
    rw [natToCharsAux_eq (n / 10) n (by omega)]

theorem natToChars_ne_nil (n : Nat) : natToChars n ≠ [] := by
  rw [natToChars_eq]
  split <;> simp

theorem isDig_of_mem_natToChars (n : Nat) :
    ∀ c ∈ natToChars n, isDig c = true := by
  induction n using Nat.strong_induction_on with
  | _ n ih =>
    intro c hc
    rw [natToChars_eq] at hc
    by_cases h : n < 10
    · simp [h] at hc
      subst hc
      exact isDig_digitChar n
    · simp [h] at hc
      rcases hc with hc | hc
      · exact ih (n / 10) (by omega) c hc
      · subst hc
        exact isDig_digitChar (n % 10)

theorem digitsVal_append_singleton (xs : Str) (c : Char) :
    digitsVal (xs ++ [c]) = digitsVal xs * 10 + digitVal c := by
  simp [digitsVal, List.foldl_append]

theorem digitsVal_natToChars (n : Nat) : digitsVal (natToChars n) = n := by
  induction n using Nat.strong_induction_on with
  | _ n ih =>
    rw [natToChars_eq]
    by_cases h : n < 10
    · simp [h, digitsVal, digitVal_digitChar n h]
    · simp only [h, if_false]
      rw [digitsVal_append_singleton, ih (n / 10) (by omega),
        digitVal_digitChar (n % 10) (by omega)]
      omega

theorem atoi_of_digits (s : Str) (hne : s ≠ [])
    (hd : ∀ c ∈ s, isDig c = true) :
    atoi s = some ((digitsVal s : Nat) : Int) := by
  match s with
  | c :: rest =>
    have hc : isDig c = true := hd c (by simp)
    have h1 : c ≠ '+' := by
      intro h
      subst h
      simp [isDig] at hc
    have h2 : c ≠ '-' := by
      intro h
      subst h
      simp [isDig] at hc
    simp only [atoi, h1, h2, if_false]
    have hall : (c :: rest).all isDig = true := List.all_eq_true.mpr hd
    simp [atoiDigits, hall]

theorem atoi_natToChars (n : Nat) : atoi (natToChars n) = some (n : Int) := by
  rw [atoi_of_digits (natToChars n) (natToChars_ne_nil n)
    (isDig_of_mem_natToChars n), digitsVal_natToChars]

theorem digitsVal_cons_zeroChar (xs : Str) :
    digitsVal ('0' :: xs) = digitsVal xs := by
  simp [digitsVal, digitVal]

theorem pad2_ne_nil (n : Nat) : pad2 n ≠ [] := by
  rw [pad2]
  split
  · simp
  · exact natToChars_ne_nil n

theorem isDig_of_mem_pad2 (n : Nat) : ∀ c ∈ pad2 n, isDig c = true := by
  intro c hc
  rw [pad2] at hc
  rcases (by split at hc <;> simp_all : c = '0' ∨ c ∈ natToChars n) with h | h
  · subst h
    decide
  · exact isDig_of_mem_natToChars n c h

theorem atoi_pad2 (n : Nat) : atoi (pad2 n) = some (n : Int) := by
  rw [atoi_of_digits (pad2 n) (pad2_ne_nil n) (isDig_of_mem_pad2 n)]
  rw [pad2]
  split
  · rw [digitsVal_cons_zeroChar, digitsVal_natToChars]
  · rw [digitsVal_natToChars]

theorem intToChars_of_nonneg (i : Int) (h : 0 ≤ i) :
    intToChars i = natToChars i.toNat := by
  simp [intToChars, not_lt.mpr h]

theorem atoi_intToChars (i : Int) (h : 0 ≤ i) :
    atoi (intToChars i) = some i := by
  rw [intToChars_of_nonneg i h, atoi_natToChars, Int.toNat_of_nonneg h]

theorem isDig_of_mem_intToChars (i : Int) (h : 0 ≤ i) :
    ∀ c ∈ intToChars i, isDig c = true := by
  rw [intToChars_of_nonneg i h]
  exact isDig_of_mem_natToChars i.toNat

theorem intToChars_ne_nil (i : Int) (h : 0 ≤ i) : intToChars i ≠ [] := by
  rw [intToChars_of_nonneg i h]
  exact natToChars_ne_nil i.toNat

/-!  ## Lemmas about splitting, joining, fields and trimming -/

theorem splitOnP_ne_nil (p : Char → Bool) (s : Str) : splitOnP p s ≠ [] := by
  induction s with
  | nil => simp [splitOnP]
  | cons c rest ih =>
    simp only [splitOnP]
    cases h : splitOnP p rest with
    | nil => exact absurd h ih
    | cons t ts =>
      by_cases hp : p c = true
      · simp [hp]
      · simp [hp]

theorem splitOnP_eq_single (p : Char → Bool) (s : Str)
    (h : ∀ c ∈ s, p c = false) : splitOnP p s = [s] := by
  induction s with
  | nil => simp [splitOnP]
  | cons c rest ih =>
    simp only [splitOnP]
    rw [ih (fun a ha => h a (by simp [ha]))]
    simp [h c (by simp)]

theorem splitOnP_append (p : Char → Bool) (x : Str) (c : Char) (y : Str)
    (hc : p c = true) (hx : ∀ a ∈ x, p a = false) :
    splitOnP p (x ++ c :: y) = x :: splitOnP p y := by
  induction x with
  | nil =>
    simp only [List.nil_append, splitOnP]
    cases h : splitOnP p y with
    | nil => exact absurd h (splitOnP_ne_nil p y)
    | cons t ts => simp [hc]
  | cons a x' ih =>
    simp only [List.cons_append, splitOnP, List.append_eq]
    rw [ih (fun b hb => hx b (by simp [hb]))]
    simp [hx a (by simp)]

theorem splitOnChar_eq_single (sep : Char) (s : Str)
    (h : ∀ c ∈ s, c ≠ sep) : splitOnChar sep s = [s] := by
  apply splitOnP_eq_single
  intro c hc
  simp [h c hc]

theorem splitOnChar_append (sep : Char) (x y : Str)
    (hx : ∀ a ∈ x, a ≠ sep) :
    splitOnChar sep (x ++ sep :: y) = x :: splitOnChar sep y := by
  apply splitOnP_append _ _ _ _ (by simp)
  intro a ha
  simp [hx a ha]

theorem goFields_eq_single (s : Str) (hne : s ≠ [])
    (h : ∀ c ∈ s, goIsSpace c = false) : goFields s = [s] := by
  rw [goFields, splitOnP_eq_single goIsSpace s h]
  simp [hne]

theorem goFields_append (x y : Str) (hne : x ≠ [])
    (hx : ∀ c ∈ x, goIsSpace c = false) :
    goFields (x ++ ' ' :: y) = x :: goFields y := by
  rw [goFields, splitOnP_append goIsSpace x ' ' y (by decide) hx]
  simp [goFields, hne]

theorem goTrimSpace_nil : goTrimSpace [] = [] := rfl

theorem goTrimSpace_cons_space (c : Char) (t : Str) (hc : goIsSpace c = true) :
    goTrimSpace (c :: t) = goTrimSpace t := by
  simp [goTrimSpace, List.dropWhile_cons, hc]

theorem goTrimSpace_eq_self (s : Str)
    (h1 : ∀ c, s.head? = some c → goIsSpace c = false)
    (h2 : ∀ c, s.getLast? = some c → goIsSpace c = false) :
    goTrimSpace s = s := by
  cases s with
  | nil => rfl
  | cons a t =>
    have ha : goIsSpace a = false := h1 a rfl
    rw [goTrimSpace, List.dropWhile_cons]
    simp only [ha, Bool.false_eq_true, if_false]
    cases hr : (a :: t).reverse with
    | nil => simp at hr
    | cons b r' =>
      have hb : goIsSpace b = false := by
        apply h2
        rw [← List.head?_reverse, hr]
        rfl
      rw [List.dropWhile_cons]
      simp only [hb, Bool.false_eq_true, if_false]
      rw [← hr, List.reverse_reverse]

theorem joinChar_cons_cons (sep : Char) (x y : Str) (ys : List Str) :
    joinChar sep (x :: y :: ys) = x ++ sep :: joinChar sep (y :: ys) := rfl

theorem joinSep_cons_cons (sep x y : Str) (ys : List Str) :
    joinSep sep (x :: y :: ys) = x ++ sep ++ joinSep sep (y :: ys) := rfl

theorem splitOnP_parts_no_sep (p : Char → Bool) (s : Str) :
    ∀ t ∈ splitOnP p s, ∀ c ∈ t, p c = false := by
  induction s with
  | nil =>
    intro t ht c hc
    simp [splitOnP] at ht
    subst ht
    simp at hc
  | cons a rest ih =>
    intro t ht c hc
    obtain ⟨u, us, h⟩ : ∃ u us, splitOnP p rest = u :: us := by
      cases hh : splitOnP p rest with
      | nil => exact absurd hh (splitOnP_ne_nil p rest)
      | cons u us => exact ⟨u, us, rfl⟩
    have ihu : ∀ d ∈ u, p d = false :=
      fun d hd => ih u (by rw [h]; simp) d hd
    have ihus : ∀ w ∈ us, ∀ d ∈ w, p d = false :=
      fun w hw d hd => ih w (by rw [h]; simp [hw]) d hd
    simp only [splitOnP, h] at ht
    by_cases hp : p a = true
    · simp only [hp, if_true] at ht
      rcases List.mem_cons.mp ht with h1 | hrest
      · rw [h1] at hc
        simp at hc
      · rcases List.mem_cons.mp hrest with h1 | h1
        · rw [h1] at hc
          exact ihu c hc
        · exact ihus t h1 c hc
    · simp only [hp, if_false] at ht
      rcases List.mem_cons.mp ht with h1 | h1
      · rw [h1] at hc
        rcases List.mem_cons.mp hc with h2 | h2
        · rw [h2]
          simpa using hp
        · exact ihu c h2
      · exact ihus t h1 c hc

theorem splitOnChar_parts_no_sep (sep : Char) (s : Str) :
    ∀ t ∈ splitOnChar sep s, ∀ c ∈ t, c ≠ sep := by
  intro t ht c hc he
  have := splitOnP_parts_no_sep (fun c => c = sep) s t ht c hc
  simp [he] at this

/-!  ## The sorted value list of a Field -/

theorem sortedValues_eq_sort (f : Field) :
    f.sortedValues = f.values.sort (· ≤ ·) := by
  rcases f with ⟨⟨m, hn⟩, b⟩
  induction m using Quotient.inductionOn with
  | h l =>
    have h1 := List.perm_insertionSort (fun x1 x2 => x1 ≤ x2) l
    have h2 : ↑(Finset.sort (fun x1 x2 => x1 ≤ x2) (⟨↑l, hn⟩ : Finset Int)) =
        (↑l : Multiset Int) := Finset.sort_eq _ _
    exact @List.eq_of_perm_of_sorted Int (fun x1 x2 => x1 ≤ x2) _ _ _
      (h1.trans (Multiset.coe_eq_coe.mp h2).symm)
      (List.sorted_insertionSort _ l) (Finset.sort_sorted _ _)

theorem sortedValues_sorted_lt (f : Field) :
    List.Sorted (· < ·) f.sortedValues := by
  rw [sortedValues_eq_sort]
  exact Finset.sort_sorted_lt f.values

theorem mem_sortedValues (f : Field) (a : Int) :
    a ∈ f.sortedValues ↔ a ∈ f.values := by
  rw [sortedValues_eq_sort]
  exact Finset.mem_sort _

theorem sortedValues_toFinset (f : Field) :
    f.sortedValues.toFinset = f.values := by
  rw [sortedValues_eq_sort]
  exact Finset.sort_toFinset _ _

theorem sortedValues_eq_nil_iff (f : Field) :
    f.sortedValues = [] ↔ f.values = ∅ := by
  rw [sortedValues_eq_sort]
  constructor
  · intro h
    have := Finset.sort_toFinset (fun x1 x2 => x1 ≤ x2) f.values
    rw [h] at this
    simpa using this.symm
  · intro h
    rw [h]
    exact Finset.sort_empty _

/-!  ## Invariants of parser outputs -/

theorem parseTime_some (s : Str) (x : Nat) (b : Bool)
    (h : parseTime s = some (x, b)) :
    x ≤ 86399 ∧ (b = false → x % 60 = 0) := by
  simp only [parseTime] at h
  split at h
  · simp at h
  rcases hA : atoi ((splitOnChar ':' s).getD 0 []) with _ | hv <;> rw [hA] at h
  · simp at h
  simp only [Option.bind_eq_bind, Option.some_bind] at h
  rcases hB : atoi ((splitOnChar ':' s).getD 1 []) with _ | mv <;> rw [hB] at h
  · simp at h
  simp only [Option.some_bind] at h
  by_cases hlen : (splitOnChar ':' s).length = 3
  · rw [if_pos hlen] at h
    rcases hC : atoi ((splitOnChar ':' s).getD 2 []) with _ | sv <;> rw [hC] at h
    · simp at h
    simp only [Option.some_bind] at h
    split at h
    · simp at h
    rename_i hcond
    simp only [Bool.or_eq_true, decide_eq_true_eq, not_or] at hcond
    simp only [Option.some.injEq, Prod.mk.injEq] at h
    obtain ⟨hx, hb⟩ := h
    subst hx
    refine ⟨by omega, ?_⟩
    intro hf
    rw [hf] at hb
    simp [hlen] at hb
  · rw [if_neg hlen] at h
    split at h
    · simp at h
    rename_i hcond
    simp only [Bool.or_eq_true, decide_eq_true_eq, not_or] at hcond
    simp only [Option.some.injEq, Prod.mk.injEq] at h
    obtain ⟨hx, hb⟩ := h
    subst hx
    refine ⟨by omega, ?_⟩
    intro _
    omega

theorem parseTimeRange_some (s : Str) (tr : TimeRange)
    (h : parseTimeRange s = some tr) : TRinv tr := by
  simp only [parseTimeRange] at h
  by_cases hstar : s = ['*']
  · rw [if_pos hstar] at h
    simp only [Option.some.injEq] at h
    subst h
    constructor
    · intro _
      rfl
    · intro hfalse
      simp at hfalse
  · rw [if_neg hstar] at h
    split at h
    · simp at h
    rcases hA : parseTime ((splitOnChar '-' s).getD 0 []) with _ | ⟨x1, b1⟩ <;>
      rw [hA] at h
    · simp at h
    simp only [Option.bind_eq_bind, Option.some_bind] at h
    rcases hB : parseTime ((splitOnChar '-' s).getD 1 []) with _ | ⟨x2, b2⟩ <;>
      rw [hB] at h
    · simp at h
    simp only [Option.some_bind, Option.some.injEq] at h
    subst h
    obtain ⟨hx1, hm1⟩ := parseTime_some _ x1 b1 hA
    obtain ⟨hx2, hm2⟩ := parseTime_some _ x2 b2 hB
    constructor
    · intro hfalse
      simp at hfalse
    · intro _
      refine ⟨hx1, hx2, rfl, ?_⟩
      intro hsec
      simp only [Bool.or_eq_false_iff] at hsec
      exact ⟨hm1 hsec.1, hm2 hsec.2⟩

theorem getD_mem_of_lt {α : Type} (l : List α) (i : Nat) (d : α)
    (h : i < l.length) : l.getD i d ∈ l := by
  rw [List.getD_eq_getElem l d h]
  exact List.getElem_mem h

theorem atoi_nonneg_of_no_dash (r : Str) (v : Int) (hd : ('-' : Char) ∉ r)
    (h : atoi r = some v) : 0 ≤ v := by
  match r with
  | [] => simp [atoi] at h
  | c :: rest =>
    have hc : c ≠ '-' := by
      intro he
      exact hd (by rw [he]; simp)
    rw [atoi] at h
    by_cases hp : c = '+'
    · rw [if_pos hp] at h
      rcases hD : atoiDigits rest with _ | n <;> rw [hD] at h
      · exact Option.noConfusion h
      · simp only [Option.map_some', Option.some.injEq,
          Int.ofNat_eq_natCast] at h
        omega
    · rw [if_neg hp, if_neg hc] at h
      rcases hD : atoiDigits (c :: rest) with _ | n <;> rw [hD] at h
      · exact Option.noConfusion h
      · simp only [Option.map_some', Option.some.injEq,
          Int.ofNat_eq_natCast] at h
        omega

theorem parseFieldItem_some (mn mx : Int) (vals vals' : Finset Int) (r : Str)
    (h : parseFieldItem mn mx vals r = some vals') :
    vals ⊆ vals' ∧ vals'.Nonempty ∧
      ∀ v ∈ vals', v ∈ vals ∨ (mn ≤ v ∧ v ≤ mx ∧ 0 ≤ v) := by
  simp only [parseFieldItem] at h
  by_cases hdash : r.contains '-' = true
  · rw [if_pos hdash] at h
    split at h
    · simp at h
    rename_i hlen2
    rcases hA : atoi ((splitOnChar '-' r).getD 0 []) with _ | sv <;> rw [hA] at h
    · simp at h
    simp only [Option.bind_eq_bind, Option.some_bind] at h
    rcases hB : atoi ((splitOnChar '-' r).getD 1 []) with _ | ev <;> rw [hB] at h
    · simp at h
    simp only [Option.some_bind] at h
    split at h
    · simp at h
    rename_i hcond
    simp only [Bool.or_eq_true, decide_eq_true_eq, not_or] at hcond
    simp only [Option.some.injEq] at h
    subst h
    have hL : (splitOnChar '-' r).length = 2 := by
      by_contra hL2
      exact hlen2 hL2
    have hsv : 0 ≤ sv := by
      apply atoi_nonneg_of_no_dash _ _ _ hA
      intro hmem
      have h2 : (splitOnChar '-' r).getD 0 [] ∈ splitOnChar '-' r :=
        getD_mem_of_lt _ _ _ (by omega)
      exact splitOnChar_parts_no_sep '-' r _ h2 '-' hmem rfl
    refine ⟨Finset.subset_union_left, ?_, ?_⟩
    · apply Finset.Nonempty.mono Finset.subset_union_right
      rw [Finset.nonempty_Icc]
      omega
    · intro v hv
      rcases Finset.mem_union.mp hv with hv | hv
      · exact Or.inl hv
      · rw [Finset.mem_Icc] at hv
        refine Or.inr ⟨by omega, by omega, by omega⟩
  · rw [if_neg hdash] at h
    rcases hA : atoi r with _ | v <;> rw [hA] at h
    · simp at h
    simp only [Option.bind_eq_bind, Option.some_bind] at h
    split at h
    · simp at h
    rename_i hcond
    simp only [Bool.or_eq_true, decide_eq_true_eq, not_or] at hcond
    simp only [Option.some.injEq] at h
    subst h
    have hv0 : 0 ≤ v := by
      apply atoi_nonneg_of_no_dash _ _ _ hA
      intro hmem
      exact hdash (List.elem_iff.mpr hmem)
    refine ⟨Finset.subset_insert _ _, Finset.insert_nonempty _ _, ?_⟩
    intro w hw
    rcases Finset.mem_insert.mp hw with hw | hw
    · subst hw
      exact Or.inr ⟨by omega, by omega, hv0⟩
    · exact Or.inl hw

theorem parseFieldAux_some (mn mx : Int) (items : List Str) :
    ∀ vals vals', parseFieldAux mn mx items vals = some vals' →
      vals ⊆ vals' ∧ (items ≠ [] → vals'.Nonempty) ∧
      ∀ v ∈ vals', v ∈ vals ∨ (mn ≤ v ∧ v ≤ mx ∧ 0 ≤ v) := by
  induction items with
  | nil =>
    intro vals vals' h
    simp only [parseFieldAux, Option.some.injEq] at h
    subst h
    exact ⟨Finset.Subset.refl _, by simp, fun v hv => Or.inl hv⟩
  | cons r rest ih =>
    intro vals vals' h
    simp only [parseFieldAux] at h
    rcases hI : parseFieldItem mn mx vals r with _ | vals2 <;> rw [hI] at h
    · simp at h
    simp only [Option.bind_eq_bind, Option.some_bind] at h
    obtain ⟨hsub2, hne2, hgood2⟩ := parseFieldItem_some mn mx vals vals2 r hI
    obtain ⟨hsub3, _, hgood3⟩ := ih vals2 vals' h
    refine ⟨hsub2.trans hsub3, fun _ => hne2.mono hsub3, ?_⟩
    intro v hv
    rcases hgood3 v hv with hv2 | hv2
    · rcases hgood2 v hv2 with hv3 | hv3
      · exact Or.inl hv3
      · exact Or.inr hv3
    · exact Or.inr hv2

theorem parseField_some (s : Str) (mn mx : Int) (f : Field)
    (h : parseField s mn mx = some f) : Finv mn mx f := by
  rw [parseField] at h
  by_cases hstar : s = ['*']
  · rw [if_pos hstar] at h
    simp only [Option.some.injEq] at h
    subst h
    exact ⟨fun _ => rfl, fun hfalse => by simp at hfalse⟩
  · rw [if_neg hstar] at h
    rcases hA : parseFieldAux mn mx (splitOnChar ',' s) ∅ with _ | vals <;>
      rw [hA] at h
    · simp at h
    simp only [Option.bind_eq_bind, Option.some_bind, Option.some.injEq] at h
    subst h
    obtain ⟨_, hne, hgood⟩ := parseFieldAux_some mn mx (splitOnChar ',' s) ∅ vals hA
    constructor
    · intro hfalse
      simp at hfalse
    · intro _
      refine ⟨hne ?_, ?_⟩
      · cases hq : splitOnChar ',' s with
        | nil => exact absurd hq (splitOnP_ne_nil _ s)
        | cons q qs => simp
      · intro v hv
        rcases hgood v hv with hv2 | hv2
        · simp at hv2
        · exact hv2

theorem parseRule_some (seg : Str) (r : Rule) (h : parseRule seg = some r) :
    Rinv r := by
  rw [parseRule] at h
  split at h
  · simp at h
  rcases hT : parseTimeRange ((goFields seg).getD 0 []) with _ | tr <;> rw [hT] at h
  · simp at h
  simp only [Option.bind_eq_bind, Option.some_bind] at h
  rcases hW : parseField ((goFields seg).getD 1 []) 0 6 with _ | dw <;> rw [hW] at h
  · simp at h
  simp only [Option.some_bind] at h
  rcases hD : parseField ((goFields seg).getD 2 []) 1 31 with _ | dm <;> rw [hD] at h
  · simp at h
  simp only [Option.some_bind] at h
  rcases hM : parseField ((goFields seg).getD 3 []) 1 12 with _ | mo <;> rw [hM] at h
  · simp at h
  simp only [Option.some_bind, Option.some.injEq] at h
  subst h
  exact ⟨parseTimeRange_some _ tr hT, parseField_some _ 0 6 dw hW,
    parseField_some _ 1 31 dm hD, parseField_some _ 1 12 mo hM⟩

theorem parseSegs_some (segs : List Str) :
    ∀ rs, parseSegs segs = some rs →
      (∀ r ∈ rs, Rinv r) ∧ rs.length = segs.length := by
  induction segs with
  | nil =>
    intro rs h
    simp only [parseSegs, Option.some.injEq] at h
    subst h
    simp
  | cons seg rest ih =>
    intro rs h
    simp only [parseSegs] at h
    rcases hR : parseRule (goTrimSpace seg) with _ | r <;> rw [hR] at h
    · simp at h
    simp only [Option.bind_eq_bind, Option.some_bind] at h
    rcases hS : parseSegs rest with _ | rs2 <;> rw [hS] at h
    · simp at h
    simp only [Option.some_bind, Option.some.injEq] at h
    subst h
    obtain ⟨hall, hlen⟩ := ih rs2 hS
    constructor
    · intro x hx
      rcases List.mem_cons.mp hx with hx | hx
      · rw [hx]
        exact parseRule_some _ r hR
      · exact hall x hx
    · simp [hlen]

theorem Parse_some (x : Str) (rs : List Rule) (h : Parse x = some rs) :
    (∀ r ∈ rs, Rinv r) ∧ rs ≠ [] := by
  rw [Parse] at h
  obtain ⟨hall, hlen⟩ := parseSegs_some _ rs h
  refine ⟨hall, ?_⟩
  intro hnil
  rw [hnil] at hlen
  cases hq : splitOnChar ';' x with
  | nil => exact absurd hq (splitOnP_ne_nil _ x)
  | cons q qs =>
    rw [hq] at hlen
    simp at hlen

/-!  ## Character classes of rendered text -/

theorem isDig_iff_toNat (c : Char) :
    isDig c = true ↔ 48 ≤ c.toNat ∧ c.toNat ≤ 57 := by
  simp [isDig]

theorem ne_char_of_toNat (c d : Char) (h : c.toNat ≠ d.toNat) : c ≠ d :=
  fun he => h (congrArg Char.toNat he)

theorem ne_star_of_chars (s : Str) (h : ∀ c ∈ s, c ≠ '*') : s ≠ ['*'] :=
  fun he => h '*' (by rw [he]; simp) rfl

/-- Characters of a two-component `HH:MM` token. -/
theorem mem_time2 (a b : Nat) :
    ∀ c ∈ pad2 a ++ ':' :: pad2 b, isDig c = true ∨ c = ':' := by
  intro c hc
  rcases List.mem_append.mp hc with hc | hc
  · exact Or.inl (isDig_of_mem_pad2 a c hc)
  · rcases List.mem_cons.mp hc with hc | hc
    · exact Or.inr hc
    · exact Or.inl (isDig_of_mem_pad2 b c hc)

/-- Characters of a three-component `HH:MM:SS` token. -/
theorem mem_time3 (a b c3 : Nat) :
    ∀ c ∈ pad2 a ++ ':' :: (pad2 b ++ ':' :: pad2 c3),
      isDig c = true ∨ c = ':' := by
  intro c hc
  rcases List.mem_append.mp hc with hc | hc
  · exact Or.inl (isDig_of_mem_pad2 a c hc)
  · rcases List.mem_cons.mp hc with hc | hc
    · exact Or.inr hc
    · exact mem_time2 b c3 c hc

theorem time2_no_colon_split (a b : Nat) :
    splitOnChar ':' (pad2 a ++ ':' :: pad2 b) = [pad2 a, pad2 b] := by
  rw [splitOnChar_append ':' (pad2 a) (pad2 b)
    (fun d hd => by
      have h1 := (isDig_iff_toNat d).mp (isDig_of_mem_pad2 a d hd)
      apply ne_char_of_toNat
      have h2 : (':' : Char).toNat = 58 := rfl
      omega)]
  rw [splitOnChar_eq_single ':' (pad2 b)
    (fun d hd => by
      have h1 := (isDig_iff_toNat d).mp (isDig_of_mem_pad2 b d hd)
      apply ne_char_of_toNat
      have h2 : (':' : Char).toNat = 58 := rfl
      omega)]

theorem time3_no_colon_split (a b c3 : Nat) :
    splitOnChar ':' (pad2 a ++ ':' :: (pad2 b ++ ':' :: pad2 c3)) =
      [pad2 a, pad2 b, pad2 c3] := by
  rw [splitOnChar_append ':' (pad2 a) (pad2 b ++ ':' :: pad2 c3)
    (fun d hd => by
      have h1 := (isDig_iff_toNat d).mp (isDig_of_mem_pad2 a d hd)
      apply ne_char_of_toNat
      have h2 : (':' : Char).toNat = 58 := rfl
      omega)]
  rw [time2_no_colon_split b c3]

/-!  ## Round trips for times and time ranges -/

theorem parseTime_pad2_two (hh mm : Nat) (h1 : hh ≤ 23) (h2 : mm ≤ 59) :
    parseTime (pad2 hh ++ ':' :: pad2 mm) = some (hh * 3600 + mm * 60, false) := by
  simp only [parseTime, time2_no_colon_split hh mm]
  rw [if_neg (by simp)]
  simp only [List.getD_cons_zero, List.getD_cons_succ]
  rw [atoi_pad2 hh]
  simp only [Option.bind_eq_bind, Option.some_bind]
  rw [atoi_pad2 mm]
  simp only [Option.some_bind]
  rw [if_neg (by simp)]
  rw [if_neg (by
    simp only [Bool.or_eq_true, decide_eq_true_eq, not_or]
    omega)]
  simp only [Option.some.injEq, Prod.mk.injEq]
  constructor
  · omega
  · simp

theorem parseTime_pad2_three (hh mm ss : Nat) (h1 : hh ≤ 23) (h2 : mm ≤ 59)
    (h3 : ss ≤ 59) :
    parseTime (pad2 hh ++ ':' :: (pad2 mm ++ ':' :: pad2 ss)) =
      some (hh * 3600 + mm * 60 + ss, true) := by
  simp only [parseTime, time3_no_colon_split hh mm ss]
  rw [if_neg (by simp)]
  simp only [List.getD_cons_zero, List.getD_cons_succ]
  rw [atoi_pad2 hh]
  simp only [Option.bind_eq_bind, Option.some_bind]
  rw [atoi_pad2 mm]
  simp only [Option.some_bind]
  rw [if_pos (by simp)]
  rw [atoi_pad2 ss]
  simp only [Option.some_bind]
  rw [if_neg (by
    simp only [Bool.or_eq_true, decide_eq_true_eq, not_or]
    omega)]
  simp only [Option.some.injEq, Prod.mk.injEq]
  constructor
  · omega
  · simp

theorem pad2_append_ne_star (a : Nat) (rest : Str) : pad2 a ++ rest ≠ ['*'] := by
  intro he
  have hne := pad2_ne_nil a
  cases hp : pad2 a with
  | nil => exact hne hp
  | cons c tail =>
    rw [hp] at he
    simp only [List.cons_append, List.cons.injEq] at he
    have hd : isDig c = true := isDig_of_mem_pad2 a c (by rw [hp]; simp)
    rw [he.1] at hd
    simp [isDig] at hd

theorem parseTimeRange_String (tr : TimeRange) (hinv : TRinv tr) :
    parseTimeRange tr.String = some tr := by
  obtain ⟨hall, hexp⟩ := hinv
  by_cases ha : tr.all = true
  · rw [hall ha]
    rfl
  · have ha2 : tr.all = false := by
      cases hq : tr.all
      · rfl
      · exact absurd hq ha
    obtain ⟨hs1, hs2, hov, hsec⟩ := hexp ha2
    simp only [TimeRange.String]
    rw [if_neg (by rw [ha2]; simp)]
    by_cases hhs : tr.hasSeconds = true
    · rw [if_pos hhs]
      have hgrp : pad2 (tr.start / 3600) ++ ':' :: (pad2 (tr.start % 3600 / 60)
            ++ ':' :: (pad2 (tr.start % 60) ++ '-' :: (pad2 (tr.endT / 3600) ++
            ':' :: (pad2 (tr.endT % 3600 / 60) ++ ':' :: pad2 (tr.endT % 60))))) =
          (pad2 (tr.start / 3600) ++ ':' :: (pad2 (tr.start % 3600 / 60) ++
            ':' :: pad2 (tr.start % 60))) ++ '-' :: (pad2 (tr.endT / 3600) ++
            ':' :: (pad2 (tr.endT % 3600 / 60) ++ ':' :: pad2 (tr.endT % 60))) := by
        simp [List.append_assoc]
      rw [hgrp]
      simp only [parseTimeRange]
      rw [if_neg (by
        intro he
        exact pad2_append_ne_star (tr.start / 3600) _
          (by rw [List.append_assoc] at he; exact he))]
      rw [splitOnChar_append '-' _ _
        (fun d hd => by
          have h1 := mem_time3 (tr.start / 3600) (tr.start % 3600 / 60)
            (tr.start % 60) d hd
          apply ne_char_of_toNat
          have e1 : ('-' : Char).toNat = 45 := rfl
          have e2 : (':' : Char).toNat = 58 := rfl
          rcases h1 with h1 | h1
          · have := (isDig_iff_toNat d).mp h1
            omega
          · rw [h1]
            omega)]
      rw [splitOnChar_eq_single '-' _
        (fun d hd => by
          have h1 := mem_time3 (tr.endT / 3600) (tr.endT % 3600 / 60)
            (tr.endT % 60) d hd
          apply ne_char_of_toNat
          have e1 : ('-' : Char).toNat = 45 := rfl
          have e2 : (':' : Char).toNat = 58 := rfl
          rcases h1 with h1 | h1
          · have := (isDig_iff_toNat d).mp h1
            omega
          · rw [h1]
            omega)]
      rw [if_neg (by simp)]
      simp only [List.getD_cons_zero, List.getD_cons_succ]
      rw [parseTime_pad2_three _ _ _ (by omega) (by omega) (by omega)]
      simp only [Option.bind_eq_bind, Option.some_bind]
      rw [parseTime_pad2_three _ _ _ (by omega) (by omega) (by omega)]
      simp only [Option.some_bind, Option.some.injEq]
      have es : tr.start / 3600 * 3600 + tr.start % 3600 / 60 * 60 +
          tr.start % 60 = tr.start := by omega
      have ee : tr.endT / 3600 * 3600 + tr.endT % 3600 / 60 * 60 +
          tr.endT % 60 = tr.endT := by omega
      obtain ⟨s0, e0, a0, o0, x0⟩ := tr
      simp only at es ee hov ha2 hhs ⊢
      rw [es, ee]
      simp [ha2, hhs, hov]
    · have hhs2 : tr.hasSeconds = false := by
        cases hq : tr.hasSeconds
        · rfl
        · exact absurd hq hhs
      obtain ⟨hm1, hm2⟩ := hsec hhs2
      rw [if_neg (by rw [hhs2]; simp)]
      have hgrp : pad2 (tr.start / 3600) ++ ':' :: (pad2 (tr.start % 3600 / 60)
            ++ '-' :: (pad2 (tr.endT / 3600) ++
            ':' :: pad2 (tr.endT % 3600 / 60))) =
          (pad2 (tr.start / 3600) ++ ':' :: pad2 (tr.start % 3600 / 60)) ++
            '-' :: (pad2 (tr.endT / 3600) ++
            ':' :: pad2 (tr.endT % 3600 / 60)) := by
        simp [List.append_assoc]
      rw [hgrp]
      simp only [parseTimeRange]
      rw [if_neg (by
        intro he
        exact pad2_append_ne_star (tr.start / 3600) _
          (by rw [List.append_assoc] at he; exact he))]
      rw [splitOnChar_append '-' _ _
        (fun d hd => by
          have h1 := mem_time2 (tr.start / 3600) (tr.start % 3600 / 60) d hd
          apply ne_char_of_toNat
          have e1 : ('-' : Char).toNat = 45 := rfl
          have e2 : (':' : Char).toNat = 58 := rfl
          rcases h1 with h1 | h1
          · have := (isDig_iff_toNat d).mp h1
            omega
          · rw [h1]
            omega)]
      rw [splitOnChar_eq_single '-' _
        (fun d hd => by
          have h1 := mem_time2 (tr.endT / 3600) (tr.endT % 3600 / 60) d hd
          apply ne_char_of_toNat
          have e1 : ('-' : Char).toNat = 45 := rfl
          have e2 : (':' : Char).toNat = 58 := rfl
          rcases h1 with h1 | h1
          · have := (isDig_iff_toNat d).mp h1
            omega
          · rw [h1]
            omega)]
      rw [if_neg (by simp)]
      simp only [List.getD_cons_zero, List.getD_cons_succ]
      rw [parseTime_pad2_two _ _ (by omega) (by omega)]
      simp only [Option.bind_eq_bind, Option.some_bind]
      rw [parseTime_pad2_two _ _ (by omega) (by omega)]
      simp only [Option.some_bind, Option.some.injEq]
      have es : tr.start / 3600 * 3600 + tr.start % 3600 / 60 * 60 =
          tr.start := by omega
      have ee : tr.endT / 3600 * 3600 + tr.endT % 3600 / 60 * 60 =
          tr.endT := by omega
      obtain ⟨s0, e0, a0, o0, x0⟩ := tr
      simp only at es ee hov ha2 hhs2 ⊢
      rw [es, ee]
      simp [ha2, hhs2, hov]

/-!  ## Round trip for fields -/

theorem not_dash_mem_intToChars (a : Int) (h : 0 ≤ a) :
    ('-' : Char) ∉ intToChars a := by
  intro hm
  have h1 := (isDig_iff_toNat '-').mp (isDig_of_mem_intToChars a h '-' hm)
  have e : ('-' : Char).toNat = 45 := rfl
  omega

theorem intToChars_no_dash (a : Int) (h : 0 ≤ a) :
    (intToChars a).contains '-' = false := by
  cases hq : (intToChars a).contains '-'
  · rfl
  · exact absurd (List.elem_iff.mp hq) (not_dash_mem_intToChars a h)

theorem runChars_chars (a b : Int) (ha : 0 ≤ a) (hb : 0 ≤ b) :
    ∀ c ∈ runChars a b, isDig c = true ∨ c = '-' := by
  intro c hc
  rw [runChars] at hc
  split at hc
  · exact Or.inl (isDig_of_mem_intToChars a ha c hc)
  · rcases List.mem_append.mp hc with hc | hc
    · exact Or.inl (isDig_of_mem_intToChars a ha c hc)
    · rcases List.mem_cons.mp hc with hc | hc
      · exact Or.inr hc
      · exact Or.inl (isDig_of_mem_intToChars b hb c hc)

theorem runChars_ne_nil (a b : Int) (ha : 0 ≤ a) : runChars a b ≠ [] := by
  rw [runChars]
  split
  · exact intToChars_ne_nil a ha
  · intro he
    rcases List.append_eq_nil.mp he with ⟨h1, _⟩
    exact intToChars_ne_nil a ha h1

theorem encodeRuns_ne_nil_all (l : List Int) :
    ∀ a b : Int, encodeRuns a b l ≠ [] := by
  induction l with
  | nil =>
    intro a b
    simp [encodeRuns]
  | cons v rest ih =>
    intro a b
    simp only [encodeRuns]
    split
    · simp
    · exact ih a v

theorem encodeRuns_ne_nil (l : List Int) (a b : Int) :
    encodeRuns a b l ≠ [] :=
  encodeRuns_ne_nil_all l a b

theorem parseFieldItem_runChars (mn mx a b : Int) (vals : Finset Int)
    (h1 : mn ≤ a) (h0 : 0 ≤ a) (h2 : a ≤ b) (h3 : b ≤ mx) :
    parseFieldItem mn mx vals (runChars a b) =
      some (vals ∪ Finset.Icc a b) := by
  have h0b : 0 ≤ b := le_trans h0 h2
  by_cases hab : a = b
  · subst hab
    rw [runChars, if_pos rfl]
    simp only [parseFieldItem]
    rw [intToChars_no_dash a h0]
    rw [if_neg (by simp)]
    rw [atoi_intToChars a h0]
    simp only [Option.bind_eq_bind, Option.some_bind]
    rw [if_neg (by
      simp only [Bool.or_eq_true, decide_eq_true_eq, not_or]
      omega)]
    congr 1
    ext x
    simp only [Finset.mem_insert, Finset.mem_union, Finset.mem_Icc]
    constructor
    · rintro (rfl | hx)
      · exact Or.inr ⟨le_refl x, le_refl x⟩
      · exact Or.inl hx
    · rintro (hx | ⟨hx1, hx2⟩)
      · exact Or.inr hx
      · exact Or.inl (le_antisymm hx2 hx1)
  · rw [runChars, if_neg hab]
    simp only [parseFieldItem]
    rw [if_pos (by
      apply List.elem_iff.mpr
      simp)]
    rw [splitOnChar_append '-' (intToChars a) (intToChars b)
      (fun d hd => by
        intro he
        exact not_dash_mem_intToChars a h0 (he ▸ hd))]
    rw [splitOnChar_eq_single '-' (intToChars b)
      (fun d hd => by
        intro he
        exact not_dash_mem_intToChars b h0b (he ▸ hd))]
    rw [if_neg (by simp)]
    simp only [List.getD_cons_zero, List.getD_cons_succ]
    rw [atoi_intToChars a h0]
    simp only [Option.bind_eq_bind, Option.some_bind]
    rw [atoi_intToChars b h0b]
    simp only [Option.some_bind]
    rw [if_neg (by
      simp only [Bool.or_eq_true, decide_eq_true_eq, not_or]
      omega)]

theorem parseFieldAux_encodeRuns (mn mx : Int) (l : List Int) :
    ∀ start prev acc, mn ≤ start → 0 ≤ start → start ≤ prev → prev ≤ mx →
      List.Sorted (· < ·) (prev :: l) → (∀ x ∈ l, x ≤ mx) →
      parseFieldAux mn mx (encodeRuns start prev l) acc =
        some ((acc ∪ Finset.Icc start prev) ∪ l.toFinset) := by
  induction l with
  | nil =>
    intro start prev acc h1 h0 h2 h3 _ _
    simp only [encodeRuns, parseFieldAux]
    rw [parseFieldItem_runChars mn mx start prev acc h1 h0 h2 h3]
    simp [parseFieldAux]
  | cons v rest ih =>
    intro start prev acc h1 h0 h2 h3 hs hb
    obtain ⟨hvgt, hrest⟩ := List.sorted_cons.mp hs
    have hpv : prev < v := hvgt v (by simp)
    have hvmx : v ≤ mx := hb v (by simp)
    by_cases hne : v ≠ prev + 1
    · simp only [encodeRuns]
      rw [if_pos hne]
      simp only [parseFieldAux]
      rw [parseFieldItem_runChars mn mx start prev acc h1 h0 h2 h3]
      simp only [Option.bind_eq_bind, Option.some_bind]
      rw [ih v v (acc ∪ Finset.Icc start prev) (by omega) (by omega)
        (le_refl v) hvmx hrest (fun x hx => hb x (by simp [hx]))]
      congr 1
      ext x
      simp only [Finset.mem_union, Finset.mem_Icc, List.toFinset_cons,
        Finset.mem_insert, List.mem_toFinset]
      constructor
      · rintro ((hx | hx) | hx)
        · exact Or.inl hx
        · exact Or.inr (Or.inl (by omega))
        · exact Or.inr (Or.inr hx)
      · rintro (hx | hx | hx)
        · exact Or.inl (Or.inl hx)
        · exact Or.inl (Or.inr (by omega))
        · exact Or.inr hx
    · simp only [encodeRuns]
      rw [if_neg (fun hk => hk (by push_neg at hne; exact hne))]
      have hveq : v = prev + 1 := by push_neg at hne; exact hne
      rw [ih start v acc h1 h0 (by omega) hvmx hrest
        (fun x hx => hb x (by simp [hx]))]
      congr 1
      ext x
      simp only [Finset.mem_union, Finset.mem_Icc, List.toFinset_cons,
        Finset.mem_insert, List.mem_toFinset]
      constructor
      · rintro ((hx | hx) | hx)
        · exact Or.inl (Or.inl hx)
        · by_cases hxv : x = v
          · exact Or.inr (Or.inl hxv)
          · exact Or.inl (Or.inr (by omega))
        · exact Or.inr (Or.inr hx)
      · rintro ((hx | hx) | hx | hx)
        · exact Or.inl (Or.inl hx)
        · exact Or.inl (Or.inr (by omega))
        · exact Or.inl (Or.inr (by omega))
        · exact Or.inr hx

theorem encodeRuns_chars (l : List Int) :
    ∀ a b : Int, 0 ≤ a → 0 ≤ b → (∀ x ∈ l, 0 ≤ x) →
      ∀ item ∈ encodeRuns a b l, ∀ c ∈ item, isDig c = true ∨ c = '-' := by
  induction l with
  | nil =>
    intro a b ha hb _ item hitem c hc
    simp only [encodeRuns, List.mem_singleton] at hitem
    subst hitem
    exact runChars_chars a b ha hb c hc
  | cons v rest ih =>
    intro a b ha hb hl item hitem c hc
    have hv0 : 0 ≤ v := hl v (by simp)
    have hrest0 : ∀ x ∈ rest, 0 ≤ x := fun x hx => hl x (by simp [hx])
    simp only [encodeRuns] at hitem
    split at hitem
    · rcases List.mem_cons.mp hitem with hitem | hitem
      · subst hitem
        exact runChars_chars a b ha hb c hc
      · exact ih v v hv0 hv0 hrest0 item hitem c hc
    · exact ih a v ha hv0 hrest0 item hitem c hc

theorem joinChar_chars (sep : Char) (P : Char → Prop) :
    ∀ items : List Str, (∀ item ∈ items, ∀ c ∈ item, P c) → P sep →
      ∀ c ∈ joinChar sep items, P c := by
  intro items
  induction items with
  | nil =>
    intro _ _ c hc
    simp [joinChar] at hc
  | cons x xs ih =>
    intro hP hsep c hc
    cases xs with
    | nil =>
      exact hP x (by simp) c hc
    | cons y ys =>
      rw [joinChar_cons_cons] at hc
      rcases List.mem_append.mp hc with hc | hc
      · exact hP x (by simp) c hc
      · rcases List.mem_cons.mp hc with hc | hc
        · exact hc ▸ hsep
        · exact ih (fun item hi => hP item (by simp [hi])) hsep c hc

theorem splitOnChar_joinChar (sep : Char) :
    ∀ items : List Str, items ≠ [] →
      (∀ item ∈ items, ∀ c ∈ item, c ≠ sep) →
      splitOnChar sep (joinChar sep items) = items := by
  intro items
  induction items with
  | nil => intro h; exact absurd rfl h
  | cons x xs ih =>
    intro _ hsep
    cases xs with
    | nil => exact splitOnChar_eq_single sep x (hsep x (by simp))
    | cons y ys =>
      rw [joinChar_cons_cons]
      rw [splitOnChar_append sep x _ (hsep x (by simp))]
      rw [ih (by simp) (fun item hi => hsep item (by simp [hi]))]

theorem parseField_String (mn mx : Int) (f : Field) (hinv : Finv mn mx f) :
    parseField f.String mn mx = some f := by
  obtain ⟨hall, hexp⟩ := hinv
  by_cases ha : f.all = true
  · have hv := hall ha
    simp only [Field.String]
    rw [if_pos ha, parseField, if_pos rfl]
    obtain ⟨vals, al⟩ := f
    simp only at hv ha
    rw [hv, ha]
  · have ha2 : f.all = false := by
      cases hq : f.all
      · rfl
      · exact absurd hq ha
    obtain ⟨hne, hgood⟩ := hexp ha2
    have hsv : f.sortedValues ≠ [] := by
      rw [Ne, sortedValues_eq_nil_iff]
      intro h0
      rw [h0] at hne
      exact Finset.not_nonempty_empty hne
    obtain ⟨v, rest, hvr⟩ : ∃ v rest, f.sortedValues = v :: rest := by
      cases hq : f.sortedValues with
      | nil => exact absurd hq hsv
      | cons v rest => exact ⟨v, rest, rfl⟩
    have hsorted := sortedValues_sorted_lt f
    rw [hvr] at hsorted
    have hmem : ∀ x ∈ v :: rest, x ∈ f.values := by
      intro x hx
      rw [← mem_sortedValues, hvr]
      exact hx
    obtain ⟨hvmn, hvmx, hv0⟩ := hgood v (hmem v (by simp))
    have hrest0 : ∀ x ∈ rest, 0 ≤ x :=
      fun x hx => (hgood x (hmem x (by simp [hx]))).2.2
    have hrestmx : ∀ x ∈ rest, x ≤ mx :=
      fun x hx => (hgood x (hmem x (by simp [hx]))).2.1
    have hstr : f.String = joinChar ',' (encodeRuns v v rest) := by
      simp only [Field.String]
      rw [if_neg (by rw [ha2]; simp),
        if_neg (by rw [hvr]; simp), hvr]
      simp
    rw [hstr]
    have hchars := encodeRuns_chars rest v v hv0 hv0 hrest0
    have hjoin : ∀ c ∈ joinChar ',' (encodeRuns v v rest),
        isDig c = true ∨ c = '-' ∨ c = ',' := by
      apply joinChar_chars ','
        (fun c => isDig c = true ∨ c = '-' ∨ c = ',')
      · intro item hi c hc
        rcases hchars item hi c hc with h | h
        · exact Or.inl h
        · exact Or.inr (Or.inl h)
      · exact Or.inr (Or.inr rfl)
    rw [parseField, if_neg (ne_star_of_chars _ (by
      intro c hc
      rcases hjoin c hc with h | h | h
      · have := (isDig_iff_toNat c).mp h
        apply ne_char_of_toNat
        have e : ('*' : Char).toNat = 42 := rfl
        omega
      · rw [h]
        decide
      · rw [h]
        decide))]
    rw [splitOnChar_joinChar ',' (encodeRuns v v rest)
      (encodeRuns_ne_nil rest v v)
      (by
        intro item hi c hc
        rcases hchars item hi c hc with h | h
        · have := (isDig_iff_toNat c).mp h
          apply ne_char_of_toNat
          have e : (',' : Char).toNat = 44 := rfl
          omega
        · rw [h]
          decide)]
    rw [parseFieldAux_encodeRuns mn mx rest v v ∅ hvmn hv0 (le_refl v)
      hvmx hsorted hrestmx]
    simp only [Option.bind_eq_bind, Option.some_bind, Option.some.injEq]
    have hset : ((∅ ∪ Finset.Icc v v) ∪ rest.toFinset) = f.values := by
      rw [← sortedValues_toFinset f, hvr, List.toFinset_cons]
      ext x
      simp only [Finset.mem_union, Finset.mem_Icc, Finset.mem_insert,
        List.mem_toFinset, Finset.not_mem_empty, false_or]
      constructor
      · rintro (⟨hx1, hx2⟩ | hx)
        · exact Or.inl (le_antisymm hx2 hx1)
        · exact Or.inr hx
      · rintro (hx | hx)
        · exact Or.inl ⟨le_of_eq hx.symm, le_of_eq hx⟩
        · exact Or.inr hx
    rw [hset]
    obtain ⟨vals, al⟩ := f
    simp only at ha2 ⊢
    rw [ha2]

/-!  ## Character sets of rendered rules -/

theorem mem_of_head? {s : Str} {c : Char} (h : s.head? = some c) : c ∈ s := by
  cases s with
  | nil => simp at h
  | cons a tl =>
    simp only [List.head?_cons, Option.some.injEq] at h
    rw [← h]
    simp

theorem mem_of_getLast? {s : Str} {c : Char} (h : s.getLast? = some c) :
    c ∈ s := by
  rw [← List.head?_reverse] at h
  exact List.mem_reverse.mp (mem_of_head? h)

theorem getLast?_append_right (x y : Str) (hy : y ≠ []) :
    (x ++ y).getLast? = y.getLast? := by
  rw [List.getLast?_append]
  cases hl : y.getLast? with
  | none => exact absurd (List.getLast?_eq_none_iff.mp hl) hy
  | some d => rfl

theorem getLast?_cons_right (c : Char) (y : Str) (hy : y ≠ []) :
    (c :: y).getLast? = y.getLast? := by
  rw [show c :: y = [c] ++ y from rfl]
  exact getLast?_append_right [c] y hy

/-- The symbol class of every character a `TimeRange` renders: a digit,
a colon, a dash or a star. -/
theorem TimeRange_String_chars (tr : TimeRange) :
    ∀ c ∈ tr.String, (48 ≤ c.toNat ∧ c.toNat ≤ 57) ∨
      c.toNat = 58 ∨ c.toNat = 45 ∨ c.toNat = 42 := by
  intro c hc
  simp only [TimeRange.String] at hc
  split at hc
  · simp only [List.mem_singleton] at hc
    subst hc
    decide
  · split at hc
    · simp only [List.mem_append, List.mem_cons] at hc
      rcases hc with hc | rfl | hc | rfl | hc | rfl | hc | rfl | hc | rfl | hc <;>
        first
          | exact Or.inl ((isDig_iff_toNat c).mp (isDig_of_mem_pad2 _ c hc))
          | decide
    · simp only [List.mem_append, List.mem_cons] at hc
      rcases hc with hc | rfl | hc | rfl | hc | rfl | hc <;>
        first
          | exact Or.inl ((isDig_iff_toNat c).mp (isDig_of_mem_pad2 _ c hc))
          | decide

theorem TimeRange_String_ne_nil (tr : TimeRange) : tr.String ≠ [] := by
  simp only [TimeRange.String]
  split
  · simp
  · split <;>
      exact fun he => pad2_ne_nil _ (List.append_eq_nil.mp he).1

theorem Finv_pos (mn mx : Int) (f : Field) (hinv : Finv mn mx f) :
    ∀ v ∈ f.values, 0 ≤ v := by
  intro v hv
  obtain ⟨hall, hexp⟩ := hinv
  by_cases ha : f.all = true
  · rw [hall ha] at hv
    simp at hv
  · have ha2 : f.all = false := by
      cases hq : f.all
      · rfl
      · exact absurd hq ha
    exact ((hexp ha2).2 v hv).2.2

/-- The symbol class of every character a `Field` renders: a digit, a
dash, a comma or a star. -/
theorem Field_String_chars (f : Field) (hpos : ∀ v ∈ f.values, 0 ≤ v) :
    ∀ c ∈ f.String, (48 ≤ c.toNat ∧ c.toNat ≤ 57) ∨
      c.toNat = 45 ∨ c.toNat = 44 ∨ c.toNat = 42 := by
  intro c hc
  simp only [Field.String] at hc
  split at hc
  · simp only [List.mem_singleton] at hc
    subst hc
    decide
  · split at hc
    · simp only [List.mem_singleton] at hc
      subst hc
      decide
    · rename_i hal hne
      obtain ⟨v, rest, hvr⟩ : ∃ v rest, f.sortedValues = v :: rest := by
        cases hq : f.sortedValues with
        | nil => rw [hq] at hne; simp at hne
        | cons v rest => exact ⟨v, rest, rfl⟩
      rw [hvr] at hc
      simp only [List.headD_cons, List.tail_cons] at hc
      have hmem : ∀ x ∈ v :: rest, x ∈ f.values := by
        intro x hx
        rw [← mem_sortedValues, hvr]
        exact hx
      have hv0 : 0 ≤ v := hpos v (hmem v (by simp))
      have hrest0 : ∀ x ∈ rest, 0 ≤ x :=
        fun x hx => hpos x (hmem x (by simp [hx]))
      have hch := joinChar_chars ','
        (fun c => isDig c = true ∨ c = '-' ∨ c = ',')
        (encodeRuns v v rest)
        (by
          intro item hi d hd
          rcases encodeRuns_chars rest v v hv0 hv0 hrest0 item hi d hd with
            h | h
          · exact Or.inl h
          · exact Or.inr (Or.inl h))
        (Or.inr (Or.inr rfl)) c hc
      rcases hch with h | h | h
      · exact Or.inl ((isDig_iff_toNat c).mp h)
      · rw [h]
        decide
      · rw [h]
        decide

theorem joinChar_ne_nil (sep : Char) (items : List Str) (hne : items ≠ [])
    (hitems : ∀ item ∈ items, item ≠ []) : joinChar sep items ≠ [] := by
  cases items with
  | nil => exact absurd rfl hne
  | cons x xs =>
    cases xs with
    | nil => exact hitems x (by simp)
    | cons y ys =>
      rw [joinChar_cons_cons]
      intro he
      rcases List.append_eq_nil.mp he with ⟨_, h2⟩
      simp at h2

theorem encodeRuns_items_ne_nil (l : List Int) :
    ∀ a b : Int, 0 ≤ a → (∀ x ∈ l, 0 ≤ x) →
      ∀ item ∈ encodeRuns a b l, item ≠ [] := by
  induction l with
  | nil =>
    intro a b ha _ item hi
    simp only [encodeRuns, List.mem_singleton] at hi
    subst hi
    exact runChars_ne_nil a b ha
  | cons v rest ih =>
    intro a b ha hl item hi
    have hv0 : 0 ≤ v := hl v (by simp)
    have hrest0 : ∀ x ∈ rest, 0 ≤ x := fun x hx => hl x (by simp [hx])
    simp only [encodeRuns] at hi
    split at hi
    · rcases List.mem_cons.mp hi with hi | hi
      · subst hi
        exact runChars_ne_nil a b ha
      · exact ih v v hv0 hrest0 item hi
    · exact ih a v ha hrest0 item hi

theorem Field_String_ne_nil (f : Field) (hpos : ∀ v ∈ f.values, 0 ≤ v) :
    f.String ≠ [] := by
  simp only [Field.String]
  split
  · simp
  · split
    · simp
    · rename_i hal hne
      obtain ⟨v, rest, hvr⟩ : ∃ v rest, f.sortedValues = v :: rest := by
        cases hq : f.sortedValues with
        | nil => rw [hq] at hne; simp at hne
        | cons v rest => exact ⟨v, rest, rfl⟩
      rw [hvr]
      simp only [List.headD_cons, List.tail_cons]
      have hmem : ∀ x ∈ v :: rest, x ∈ f.values := by
        intro x hx
        rw [← mem_sortedValues, hvr]
        exact hx
      have hv0 : 0 ≤ v := hpos v (hmem v (by simp))
      have hrest0 : ∀ x ∈ rest, 0 ≤ x :=
        fun x hx => hpos x (hmem x (by simp [hx]))
      exact joinChar_ne_nil ',' _ (encodeRuns_ne_nil rest v v)
        (encodeRuns_items_ne_nil rest v v hv0 hrest0)

/-!  ## Round trip for rules and whole expressions -/

theorem goIsSpace_false_of_sym (c : Char)
    (h : (48 ≤ c.toNat ∧ c.toNat ≤ 57) ∨ c.toNat = 58 ∨ c.toNat = 45 ∨
      c.toNat = 44 ∨ c.toNat = 42) : goIsSpace c = false := by
  simp only [goIsSpace, Bool.or_eq_false_iff, decide_eq_false_iff_not]
  omega

theorem TimeRange_String_no_space (tr : TimeRange) :
    ∀ c ∈ tr.String, goIsSpace c = false := by
  intro c hc
  apply goIsSpace_false_of_sym
  rcases TimeRange_String_chars tr c hc with h | h | h | h
  · exact Or.inl h
  · exact Or.inr (Or.inl h)
  · exact Or.inr (Or.inr (Or.inl h))
  · exact Or.inr (Or.inr (Or.inr (Or.inr h)))

theorem Field_String_no_space (f : Field) (hpos : ∀ v ∈ f.values, 0 ≤ v) :
    ∀ c ∈ f.String, goIsSpace c = false := by
  intro c hc
  apply goIsSpace_false_of_sym
  rcases Field_String_chars f hpos c hc with h | h | h | h
  · exact Or.inl h
  · exact Or.inr (Or.inr (Or.inl h))
  · exact Or.inr (Or.inr (Or.inr (Or.inl h)))
  · exact Or.inr (Or.inr (Or.inr (Or.inr h)))

theorem goFields_Rule_String (r : Rule) (hinv : Rinv r) :
    goFields (Rule.String r) =
      [r.timeRange.String, r.dow.String, r.dom.String, r.month.String] := by
  obtain ⟨htr, hdw, hdm, hmo⟩ := hinv
  have hdwp := Finv_pos 0 6 r.dow hdw
  have hdmp := Finv_pos 1 31 r.dom hdm
  have hmop := Finv_pos 1 12 r.month hmo
  rw [Rule.String]
  rw [goFields_append _ _ (TimeRange_String_ne_nil r.timeRange)
    (TimeRange_String_no_space r.timeRange)]
  rw [goFields_append _ _ (Field_String_ne_nil r.dow hdwp)
    (Field_String_no_space r.dow hdwp)]
  rw [goFields_append _ _ (Field_String_ne_nil r.dom hdmp)
    (Field_String_no_space r.dom hdmp)]
  rw [goFields_eq_single _ (Field_String_ne_nil r.month hmop)
    (Field_String_no_space r.month hmop)]

theorem parseRule_String (r : Rule) (hinv : Rinv r) :
    parseRule (Rule.String r) = some r := by
  obtain ⟨htr, hdw, hdm, hmo⟩ := hinv
  simp only [parseRule]
  rw [goFields_Rule_String r ⟨htr, hdw, hdm, hmo⟩]
  rw [if_neg (by simp)]
  simp only [List.getD_cons_zero, List.getD_cons_succ]
  rw [parseTimeRange_String r.timeRange htr]
  simp only [Option.bind_eq_bind, Option.some_bind]
  rw [parseField_String 0 6 r.dow hdw]
  simp only [Option.some_bind]
  rw [parseField_String 1 31 r.dom hdm]
  simp only [Option.some_bind]
  rw [parseField_String 1 12 r.month hmo]
  simp only [Option.some_bind]

theorem Rule_String_chars (r : Rule) (hinv : Rinv r) :
    ∀ c ∈ Rule.String r, (48 ≤ c.toNat ∧ c.toNat ≤ 57) ∨ c.toNat = 58 ∨
      c.toNat = 45 ∨ c.toNat = 44 ∨ c.toNat = 42 ∨ c.toNat = 32 := by
  obtain ⟨htr, hdw, hdm, hmo⟩ := hinv
  have hdwp := Finv_pos 0 6 r.dow hdw
  have hdmp := Finv_pos 1 31 r.dom hdm
  have hmop := Finv_pos 1 12 r.month hmo
  intro c hc
  rw [Rule.String] at hc
  simp only [List.mem_append, List.mem_cons] at hc
  rcases hc with hc | rfl | hc | rfl | hc | rfl | hc
  · rcases TimeRange_String_chars r.timeRange c hc with h | h | h | h
    · exact Or.inl h
    · exact Or.inr (Or.inl h)
    · exact Or.inr (Or.inr (Or.inl h))
    · exact Or.inr (Or.inr (Or.inr (Or.inr (Or.inl h))))
  · decide
  · rcases Field_String_chars r.dow hdwp c hc with h | h | h | h
    · exact Or.inl h
    · exact Or.inr (Or.inr (Or.inl h))
    · exact Or.inr (Or.inr (Or.inr (Or.inl h)))
    · exact Or.inr (Or.inr (Or.inr (Or.inr (Or.inl h))))
  · decide
  · rcases Field_String_chars r.dom hdmp c hc with h | h | h | h
    · exact Or.inl h
    · exact Or.inr (Or.inr (Or.inl h))
    · exact Or.inr (Or.inr (Or.inr (Or.inl h)))
    · exact Or.inr (Or.inr (Or.inr (Or.inr (Or.inl h))))
  · decide
  · rcases Field_String_chars r.month hmop c hc with h | h | h | h
    · exact Or.inl h
    · exact Or.inr (Or.inr (Or.inl h))
    · exact Or.inr (Or.inr (Or.inr (Or.inl h)))
    · exact Or.inr (Or.inr (Or.inr (Or.inr (Or.inl h))))

theorem Rule_String_no_semi (r : Rule) (hinv : Rinv r) :
    ∀ c ∈ Rule.String r, c ≠ ';' := by
  intro c hc
  have h := Rule_String_chars r hinv c hc
  apply ne_char_of_toNat
  have e : (';' : Char).toNat = 59 := rfl
  omega

theorem goTrimSpace_Rule_String (r : Rule) (hinv : Rinv r) :
    goTrimSpace (Rule.String r) = Rule.String r := by
  obtain ⟨htr, hdw, hdm, hmo⟩ := hinv
  have hmop := Finv_pos 1 12 r.month hmo
  apply goTrimSpace_eq_self
  · intro c hc
    obtain ⟨d, td, hdt⟩ : ∃ d td, r.timeRange.String = d :: td := by
      cases hq : r.timeRange.String with
      | nil => exact absurd hq (TimeRange_String_ne_nil r.timeRange)
      | cons d td => exact ⟨d, td, rfl⟩
    rw [Rule.String, hdt] at hc
    simp only [List.cons_append, List.head?_cons, Option.some.injEq] at hc
    rw [← hc]
    exact TimeRange_String_no_space r.timeRange d (by rw [hdt]; simp)
  · intro c hc
    rw [Rule.String] at hc
    rw [getLast?_append_right _ _ (by simp)] at hc
    rw [getLast?_cons_right _ _ (by
      intro he
      rcases List.append_eq_nil.mp he with ⟨h1, _⟩
      exact Field_String_ne_nil r.dow (Finv_pos 0 6 r.dow hdw) h1)] at hc
    rw [getLast?_append_right _ _ (by simp)] at hc
    rw [getLast?_cons_right _ _ (by
      intro he
      rcases List.append_eq_nil.mp he with ⟨h1, _⟩
      exact Field_String_ne_nil r.dom (Finv_pos 1 31 r.dom hdm) h1)] at hc
    rw [getLast?_append_right _ _ (by simp)] at hc
    rw [getLast?_cons_right _ _ (Field_String_ne_nil r.month hmop)] at hc
    exact Field_String_no_space r.month hmop c (mem_of_getLast? hc)

theorem splitOnP_cons_of_neg (p : Char → Bool) (c : Char) (s : Str)
    (hc : p c = false) (u : Str) (us : List Str)
    (h : splitOnP p s = u :: us) :
    splitOnP p (c :: s) = (c :: u) :: us := by
  simp [splitOnP, h, hc]

theorem parseSegs_cons_trim (a b : Str) (ts : List Str)
    (h : goTrimSpace a = goTrimSpace b) :
    parseSegs (a :: ts) = parseSegs (b :: ts) := by
  simp only [parseSegs, h]

theorem Parse_rulesString (rs : List Rule) :
    rs ≠ [] → (∀ r ∈ rs, Rinv r) → Parse (rulesString rs) = some rs := by
  induction rs with
  | nil => intro h; exact absurd rfl h
  | cons r rs2 ih =>
    intro _ hinv
    have hr : Rinv r := hinv r (by simp)
    cases rs2 with
    | nil =>
      have hform : rulesString [r] = Rule.String r := by
        simp [rulesString, joinSep]
      rw [hform, Parse]
      rw [splitOnChar_eq_single ';' _ (Rule_String_no_semi r hr)]
      simp only [parseSegs]
      rw [goTrimSpace_Rule_String r hr, parseRule_String r hr]
      simp [parseSegs]
    | cons r2 rest =>
      have hform : rulesString (r :: r2 :: rest) =
          Rule.String r ++ ';' :: (' ' :: rulesString (r2 :: rest)) := by
        simp [rulesString, joinSep_cons_cons, List.append_assoc]
      rw [hform, Parse]
      rw [splitOnChar_append ';' _ _ (Rule_String_no_semi r hr)]
      obtain ⟨u, us, hsplit⟩ : ∃ u us,
          splitOnChar ';' (rulesString (r2 :: rest)) = u :: us := by
        cases hq : splitOnChar ';' (rulesString (r2 :: rest)) with
        | nil => exact absurd hq (splitOnP_ne_nil _ _)
        | cons u us => exact ⟨u, us, rfl⟩
      rw [show splitOnChar ';' (' ' :: rulesString (r2 :: rest)) =
          (' ' :: u) :: us from
        splitOnP_cons_of_neg _ ' ' _ (by decide) u us hsplit]
      have hih : parseSegs (u :: us) = some (r2 :: rest) := by
        have h2 := ih (by simp) (fun x hx => hinv x (by simp [hx]))
        rw [Parse, hsplit] at h2
        exact h2
      simp only [parseSegs]
      rw [goTrimSpace_Rule_String r hr, parseRule_String r hr]
      simp only [Option.bind_eq_bind, Option.some_bind]
      rw [goTrimSpace_cons_space ' ' u (by decide)]
      simp only [parseSegs, Option.bind_eq_bind] at hih
      rw [hih]
      simp

/-!  ## The claims -/

theorem specFieldMatches_iff (f : Field) (n : Int) :
    specFieldMatches f n ↔ f.matches n = true := by
  simp [specFieldMatches, Field.matches]

/-- C1: for every successfully parsed Rule and every instant `t`,
`Rule.matches t` is true iff all four constraints hold: the month Field
matches the month, the day-of-month Field matches the day, the
day-of-week Field matches the weekday and the TimeRange matches, where an
all-values Field matches every integer, an explicit Field matches by set
membership, an all-day TimeRange matches every instant, an overnight
TimeRange (`end < start`) matches iff `v ≥ start` or `v ≤ end` for `v`
the seconds-since-midnight, and an ordinary TimeRange matches iff
`start ≤ v ≤ end`, boundaries inclusive in both branches. -/
theorem rule_matches_spec (s : Str) (r : Rule) (h : parseRule s = some r)
    (t : Instant) :
    r.matches t = true ↔
      (specFieldMatches r.month (t.month : Int) ∧
       specFieldMatches r.dom (t.day : Int) ∧
       specFieldMatches r.dow (t.weekday : Int) ∧
       specTimeRangeMatches r.timeRange (secondsOfDay t)) := by
  obtain ⟨⟨hall, hexp⟩, _, _, _⟩ := parseRule_some s r h
  have hov : r.timeRange.overnight =
      decide (r.timeRange.endT < r.timeRange.start) := by
    by_cases ha : r.timeRange.all = true
    · rw [hall ha]
      decide
    · have ha2 : r.timeRange.all = false := by
        cases hq : r.timeRange.all
        · rfl
        · exact absurd hq ha
      exact (hexp ha2).2.2.1
  rw [Rule.matches]
  simp only [specFieldMatches_iff, specTimeRangeMatches]
  by_cases hm : r.month.matches (t.month : Int) = true <;>
    by_cases hd : r.dom.matches (t.day : Int) = true <;>
      by_cases hw : r.dow.matches (t.weekday : Int) = true <;>
        simp only [hm, hd, hw, Bool.not_true, Bool.not_false, if_true,
          if_false, Bool.false_eq_true, Bool.true_eq_false] <;>
      try simp [hm, hd, hw]
  by_cases ha : r.timeRange.all = true
  · simp [ha]
  · have ha2 : r.timeRange.all = false := by
      cases hq : r.timeRange.all
      · rfl
      · exact absurd hq ha
    rw [hov]
    by_cases hlt : r.timeRange.endT < r.timeRange.start
    · simp [ha2, hlt]
    · simp [ha2, hlt]

/-- C1 witness: the theorem applied to the parsed rule of
`"09:00-17:00 * * *"` and the instant 10:00:00 on an arbitrary date. -/
theorem rule_matches_spec_witness :
    ruleDay.matches ⟨1, 1, 1, 10, 0, 0⟩ = true ↔
      (specFieldMatches ruleDay.month ((1 : Nat) : Int) ∧
       specFieldMatches ruleDay.dom ((1 : Nat) : Int) ∧
       specFieldMatches ruleDay.dow ((1 : Nat) : Int) ∧
       specTimeRangeMatches ruleDay.timeRange
         (secondsOfDay ⟨1, 1, 1, 10, 0, 0⟩)) :=
  rule_matches_spec (String.toList "09:00-17:00 * * *") ruleDay rfl
    ⟨1, 1, 1, 10, 0, 0⟩

/-- C2: matching is evaluated at seconds resolution with inclusive
boundaries: for the rule of `"09:00-17:00 * * *"` the instants 08:59:59
and 17:00:01 do not match while 09:00:00 and 17:00:00 do, and for the
overnight rule of `"23:00-02:00 * * *"` the instants 22:59:59 and
02:00:01 do not match while 23:00:00, 00:00:00, 01:30:00 and 02:00:00 all
match, on any date. -/
theorem seconds_resolution_inclusive (rs1 rs2 : List Rule)
    (h1 : Parse (String.toList "09:00-17:00 * * *") = some rs1)
    (h2 : Parse (String.toList "23:00-02:00 * * *") = some rs2)
    (mo d w : Nat) :
    Match rs1 ⟨mo, d, w, 8, 59, 59⟩ = false ∧
    Match rs1 ⟨mo, d, w, 17, 0, 1⟩ = false ∧
    Match rs1 ⟨mo, d, w, 9, 0, 0⟩ = true ∧
    Match rs1 ⟨mo, d, w, 17, 0, 0⟩ = true ∧
    Match rs2 ⟨mo, d, w, 22, 59, 59⟩ = false ∧
    Match rs2 ⟨mo, d, w, 2, 0, 1⟩ = false ∧
    Match rs2 ⟨mo, d, w, 23, 0, 0⟩ = true ∧
    Match rs2 ⟨mo, d, w, 0, 0, 0⟩ = true ∧
    Match rs2 ⟨mo, d, w, 1, 30, 0⟩ = true ∧
    Match rs2 ⟨mo, d, w, 2, 0, 0⟩ = true := by
  have e1 : Parse (String.toList "09:00-17:00 * * *") = some [ruleDay] := rfl
  have e2 : Parse (String.toList "23:00-02:00 * * *") = some [ruleNight] :=
    rfl
  rw [e1] at h1
  rw [e2] at h2
  obtain rfl : rs1 = [ruleDay] := (Option.some.inj h1).symm
  obtain rfl : rs2 = [ruleNight] := (Option.some.inj h2).symm
  refine ⟨?_, ?_, ?_, ?_, ?_, ?_, ?_, ?_, ?_, ?_⟩ <;>
    · simp only [Match, List.any_cons, List.any_nil, Bool.or_false,
        Rule.matches, Field.matches, ruleDay, ruleNight, Bool.true_or,
        Bool.not_true, Bool.false_eq_true, if_false, secondsOfDay]
      norm_num

/-- C2 witness: the theorem applied on the date (month 1, day 2,
weekday 3). -/
theorem seconds_resolution_inclusive_witness :
    Match [ruleDay] ⟨1, 2, 3, 8, 59, 59⟩ = false ∧
    Match [ruleDay] ⟨1, 2, 3, 17, 0, 1⟩ = false ∧
    Match [ruleDay] ⟨1, 2, 3, 9, 0, 0⟩ = true ∧
    Match [ruleDay] ⟨1, 2, 3, 17, 0, 0⟩ = true ∧
    Match [ruleNight] ⟨1, 2, 3, 22, 59, 59⟩ = false ∧
    Match [ruleNight] ⟨1, 2, 3, 2, 0, 1⟩ = false ∧
    Match [ruleNight] ⟨1, 2, 3, 23, 0, 0⟩ = true ∧
    Match [ruleNight] ⟨1, 2, 3, 0, 0, 0⟩ = true ∧
    Match [ruleNight] ⟨1, 2, 3, 1, 30, 0⟩ = true ∧
    Match [ruleNight] ⟨1, 2, 3, 2, 0, 0⟩ = true :=
  seconds_resolution_inclusive [ruleDay] [ruleNight] rfl rfl 1 2 3

/-- C3: `Match rs t` is true iff some rule in `rs` matches `t`; the empty
list never matches; and the boolean result is invariant under any
permutation of the list. -/
theorem match_any_spec (rs : List Rule) (t : Instant) :
    (Match rs t = true ↔ ∃ r ∈ rs, r.matches t = true) ∧
    Match [] t = false ∧
    (∀ rs2, rs.Perm rs2 → Match rs t = Match rs2 t) := by
  refine ⟨?_, rfl, ?_⟩
  · simp [Match, List.any_eq_true]
  · intro rs2 hp
    rw [Bool.eq_iff_iff]
    simp only [Match, List.any_eq_true]
    constructor
    · rintro ⟨x, hx, hm⟩
      exact ⟨x, hp.mem_iff.mp hx, hm⟩
    · rintro ⟨x, hx, hm⟩
      exact ⟨x, hp.mem_iff.mpr hx, hm⟩

/-- C3 witness: the theorem applied to the singleton list of the
all-day weekday rule and its own permutation. -/
theorem match_any_spec_witness :
    Match ([] : List Rule) ⟨1, 1, 1, 0, 0, 0⟩ = false ∧
    Match [ruleDay] ⟨1, 1, 1, 0, 0, 0⟩ = Match [ruleDay] ⟨1, 1, 1, 0, 0, 0⟩ :=
  ⟨(match_any_spec [] ⟨1, 1, 1, 0, 0, 0⟩).2.1,
   (match_any_spec [ruleDay] ⟨1, 1, 1, 0, 0, 0⟩).2.2 [ruleDay]
     (List.Perm.refl _)⟩

/-- C4: for every bounded-field token accepted by `parseField` with
bounds `(mn, mx)`, formatting the resulting Field with `Field.String`
yields a token that denotes exactly the same set of integers: re-parsing
the formatted token under the same bounds yields the very same Field. -/
theorem field_format_same_set (s : Str) (mn mx : Int) (f : Field)
    (h : parseField s mn mx = some f) :
    parseField f.String mn mx = some f :=
  parseField_String mn mx f (parseField_some s mn mx f h)

/-- C4 witness: `"1,3-3,5"` parses to the set `{1,3,5}`, whose rendering
(`"1,3,5"`) re-parses to the same field; the rendering of the parses of
`"1,3-3,5"` and `"1,3,5"` coincide, and `"1-2,3"` renders as `"1-3"`. -/
theorem field_format_same_set_witness :
    parseField fieldEx.String 1 31 = some fieldEx ∧
    (parseField (String.toList "1,3-3,5") 1 31).map Field.String =
      some (String.toList "1,3,5") ∧
    (parseField (String.toList "1,3,5") 1 31).map Field.String =
      some (String.toList "1,3,5") ∧
    (parseField (String.toList "1-2,3") 1 31).map Field.String =
      some (String.toList "1-3") :=
  ⟨field_format_same_set (String.toList "1,3-3,5") 1 31 fieldEx rfl,
   by decide, by decide, by decide⟩

/-- C5: canonicalization is idempotent: for every expression accepted by
`Parse`, re-parsing the canonical rendering succeeds and renders to the
same text, so `format (parse (format (parse x))) = format (parse x)`. -/
theorem canonical_format_idempotent (x : Str) (rs : List Rule)
    (h : Parse x = some rs) :
    ∃ rs2, Parse (rulesString rs) = some rs2 ∧
      rulesString rs2 = rulesString rs := by
  obtain ⟨hinv, hne⟩ := Parse_some x rs h
  exact ⟨rs, Parse_rulesString rs hne hinv, rfl⟩

/-- C5 witness: the theorem applied to
`"17:20-21:35 1-5 * *; * 0,6 * *"`. -/
theorem canonical_format_idempotent_witness :
    ∃ rs2, Parse (rulesString rulesPair) = some rs2 ∧
      rulesString rs2 = rulesString rulesPair :=
  canonical_format_idempotent
    (String.toList "17:20-21:35 1-5 * *; * 0,6 * *") rulesPair rfl

/-- C6: a range item `a-b` is rejected iff `a > b` or either endpoint
lies outside `[mn, mx]`; when accepted every integer in `[a, b]` is
added; a bare integer is rejected iff outside `[mn, mx]`; and because
the result is a set union over any accumulated `vals`, duplicates from
overlapping items collapse silently with no error. -/
theorem parseFieldItem_accept_reject (mn mx a b : Int) (vals : Finset Int)
    (ha : 0 ≤ a) (hb : 0 ≤ b) :
    (parseFieldItem mn mx vals (intToChars a ++ '-' :: intToChars b) =
      if a > b ∨ a < mn ∨ a > mx ∨ b < mn ∨ b > mx then none
      else some (vals ∪ Finset.Icc a b)) ∧
    (parseFieldItem mn mx vals (intToChars a) =
      if a < mn ∨ a > mx then none else some (insert a vals)) := by
  constructor
  · simp only [parseFieldItem]
    rw [if_pos (by
      apply List.elem_iff.mpr
      simp)]
    rw [splitOnChar_append '-' (intToChars a) (intToChars b)
      (fun d hd => fun he => not_dash_mem_intToChars a ha (he ▸ hd))]
    rw [splitOnChar_eq_single '-' (intToChars b)
      (fun d hd => fun he => not_dash_mem_intToChars b hb (he ▸ hd))]
    rw [if_neg (by simp)]
    simp only [List.getD_cons_zero, List.getD_cons_succ]
    rw [atoi_intToChars a ha]
    simp only [Option.bind_eq_bind, Option.some_bind]
    rw [atoi_intToChars b hb]
    simp only [Option.some_bind]
    by_cases hcode : a < mn ∨ b > mx ∨ a > b
    · rw [if_pos (by
        simp only [Bool.or_eq_true, decide_eq_true_eq]
        tauto)]
      rw [if_pos (by omega)]
    · rw [if_neg (by
        simp only [Bool.or_eq_true, decide_eq_true_eq]
        tauto)]
      rw [if_neg (by omega)]
  · simp only [parseFieldItem]
    rw [intToChars_no_dash a ha]
    rw [if_neg (by simp)]
    rw [atoi_intToChars a ha]
    simp only [Option.bind_eq_bind, Option.some_bind]
    by_cases hcode : a < mn ∨ a > mx
    · rw [if_pos (by
        simp only [Bool.or_eq_true, decide_eq_true_eq]
        tauto)]
      rw [if_pos hcode]
    · rw [if_neg (by
        simp only [Bool.or_eq_true, decide_eq_true_eq]
        tauto)]
      rw [if_neg hcode]

/-- C6 witness: the theorem applied to the item `3-5` and the bare item
`3` with bounds 1-31 over an accumulated set already containing 3. -/
theorem parseFieldItem_accept_reject_witness :
    (parseFieldItem 1 31 (insert 3 ∅) (intToChars 3 ++ '-' :: intToChars 5) =
      if (3 : Int) > 5 ∨ (3 : Int) < 1 ∨ (3 : Int) > 31 ∨ (5 : Int) < 1 ∨
        (5 : Int) > 31 then none
      else some (insert 3 ∅ ∪ Finset.Icc 3 5)) ∧
    (parseFieldItem 1 31 (insert 3 ∅) (intToChars 3) =
      if (3 : Int) < 1 ∨ (3 : Int) > 31 then none
      else some (insert 3 (insert 3 ∅))) :=
  parseFieldItem_accept_reject 1 31 3 5 (insert 3 ∅) (by omega) (by omega)

/-- C7: a non-`*` time-range token fails unless it splits on `-` into
exactly two sub-tokens; a sub-token parses iff it has exactly 2 or 3
colon-separated integer components with hours 0-23 and minutes and
seconds 0-59; and hour 24, weekday 7, day-of-month 32 and month 13 are
all rejected in their fields. -/
theorem time_token_validation :
    (∀ s : Str, s ≠ ['*'] → (splitOnChar '-' s).length ≠ 2 →
      parseTimeRange s = none) ∧
    (∀ ts : Str, (parseTime ts).isSome = true ↔ validTimeToken ts) ∧
    parseRule (String.toList "24:00-10:00 * * *") = none ∧
    parseRule (String.toList "17:20-21:35 7 * *") = none ∧
    parseRule (String.toList "17:20-21:35 1-5 32 *") = none ∧
    parseRule (String.toList "17:20-21:35 1-5 * 13") = none := by
  refine ⟨?_, ?_, by decide, by decide, by decide, by decide⟩
  · intro s h1 h2
    simp only [parseTimeRange]
    rw [if_neg h1, if_pos h2]
  · intro ts
    constructor
    · intro h
      obtain ⟨⟨x, b⟩, hx⟩ := Option.isSome_iff_exists.mp h
      simp only [parseTime] at hx
      split at hx
      · simp at hx
      rename_i hlen
      simp only [Bool.or_eq_true, decide_eq_true_eq, not_or] at hlen
      rcases hA : atoi ((splitOnChar ':' ts).getD 0 []) with _ | hv <;>
        rw [hA] at hx
      · simp at hx
      simp only [Option.bind_eq_bind, Option.some_bind] at hx
      rcases hB : atoi ((splitOnChar ':' ts).getD 1 []) with _ | mv <;>
        rw [hB] at hx
      · simp at hx
      simp only [Option.some_bind] at hx
      by_cases hlen3 : (splitOnChar ':' ts).length = 3
      · rw [if_pos hlen3] at hx
        rcases hC : atoi ((splitOnChar ':' ts).getD 2 []) with _ | sv <;>
          rw [hC] at hx
        · simp at hx
        simp only [Option.some_bind] at hx
        split at hx
        · simp at hx
        rename_i hcond
        simp only [Bool.or_eq_true, decide_eq_true_eq, not_or] at hcond
        refine ⟨by omega, ⟨hv, hA, by omega, by omega⟩,
          ⟨mv, hB, by omega, by omega⟩, ?_⟩
        intro _
        exact ⟨sv, hC, by omega, by omega⟩
      · rw [if_neg hlen3] at hx
        split at hx
        · simp at hx
        rename_i hcond
        simp only [Bool.or_eq_true, decide_eq_true_eq, not_or] at hcond
        refine ⟨by omega, ⟨hv, hA, by omega, by omega⟩,
          ⟨mv, hB, by omega, by omega⟩, ?_⟩
        intro hk
        exact absurd hk hlen3
    · rintro ⟨hlen, ⟨hv, hA, hv0, hv23⟩, ⟨mv, hB, hm0, hm59⟩, hsec⟩
      simp only [parseTime]
      rw [if_neg (by
        clear hsec
        simp only [Bool.or_eq_true, decide_eq_true_eq, not_or]
        omega)]
      rw [hA]
      simp only [Option.bind_eq_bind, Option.some_bind]
      rw [hB]
      simp only [Option.some_bind]
      by_cases hlen3 : (splitOnChar ':' ts).length = 3
      · obtain ⟨sv, hC, hs0, hs59⟩ := hsec hlen3
        rw [if_pos hlen3, hC]
        simp only [Option.some_bind]
        rw [if_neg (by
          clear hsec
          simp only [Bool.or_eq_true, decide_eq_true_eq, not_or]
          omega)]
        simp
      · rw [if_neg hlen3]
        rw [if_neg (by
          clear hsec
          simp only [Bool.or_eq_true, decide_eq_true_eq, not_or]
          omega)]
        simp

/-- C7 witness: the theorem applied to the dash-free token `"10:00"`,
and its sub-token characterization applied to `"24:00"` (whose hour is
out of range, so both sides of the iff are false). -/
theorem time_token_validation_witness :
    parseTimeRange (String.toList "10:00") = none ∧
    ((parseTime (String.toList "24:00")).isSome = true ↔
      validTimeToken (String.toList "24:00")) :=
  ⟨time_token_validation.1 (String.toList "10:00") (by decide) (by decide),
   time_token_validation.2.1 (String.toList "24:00")⟩

/-- C8: `parseRule` fails with a field-count error whenever splitting
the segment on whitespace does not yield exactly 4 tokens; in particular
the 3-token segment `"17:20-21:35 1-5 *"` and the empty segment fail. -/
theorem rule_field_count :
    (∀ s : Str, (goFields s).length ≠ 4 → parseRule s = none) ∧
    parseRule (String.toList "17:20-21:35 1-5 *") = none ∧
    parseRule ([] : Str) = none := by
  refine ⟨?_, by decide, by decide⟩
  intro s h
  simp only [parseRule]
  rw [if_pos h]

/-- C8 witness: the theorem applied to a 3-token segment. -/
theorem rule_field_count_witness :
    parseRule (String.toList "* * *") = none :=
  rule_field_count.1 (String.toList "* * *") (by decide)

/-- C9: the batch loader returns the empty rule list for an empty
stream, otherwise processes the newline-split lines in order; a line
that is blank after trimming is skipped, a non-blank line is parsed as a
full expression and its rules are appended in front of the rest, and the
first invalid line aborts the whole load. -/
theorem parseFromReader_spec :
    ParseFromReader [] = some [] ∧
    (∀ input : Str, input ≠ [] →
      ParseFromReader input = readLines (splitOnChar '\n' input)) ∧
    (∀ l rest, goTrimSpace (dropCR l) = [] →
      readLines (l :: rest) = readLines rest) ∧
    (∀ l rest rs, goTrimSpace (dropCR l) ≠ [] →
      Parse (goTrimSpace (dropCR l)) = some rs →
      readLines (l :: rest) = (readLines rest).map (fun more => rs ++ more)) ∧
    (∀ l rest, goTrimSpace (dropCR l) ≠ [] →
      Parse (goTrimSpace (dropCR l)) = none →
      readLines (l :: rest) = none) := by
  refine ⟨rfl, ?_, ?_, ?_, ?_⟩
  · intro input h
    rw [ParseFromReader, if_neg (by simpa [List.isEmpty_iff] using h)]
  · intro l rest h
    simp only [readLines, h]
    rfl
  · intro l rest rs hne hp
    simp only [readLines, hp]
    rw [if_neg (by simpa [List.isEmpty_iff] using hne)]
    cases hq : readLines rest <;> simp [hq]
  · intro l rest hne hp
    simp only [readLines, hp]
    rw [if_neg (by simpa [List.isEmpty_iff] using hne)]
    simp

/-- C9 witness: the theorem applied to a one-line stream and to a blank
line in front of an empty rest. -/
theorem parseFromReader_spec_witness :
    ParseFromReader (String.toList "* * * *") =
      readLines (splitOnChar '\n' (String.toList "* * * *")) ∧
    readLines [[' ']] = readLines [] :=
  ⟨parseFromReader_spec.2.1 (String.toList "* * * *") (by decide),
   parseFromReader_spec.2.2.1 [' '] [] (by decide)⟩

/-- C10: a Field whose `all` flag is false and whose explicit set is
empty renders as `"*"` - the same text as the all-values Field - so this
empty Field, which matches no value, formats (and re-parses) as one that
matches every value. -/
theorem empty_field_formats_star :
    Field.String ⟨∅, false⟩ = ['*'] ∧
    Field.String ⟨∅, true⟩ = ['*'] ∧
    (∀ mn mx : Int,
      parseField (Field.String ⟨(∅ : Finset Int), false⟩) mn mx =
        some ⟨∅, true⟩) ∧
    (∀ v : Int, Field.matches ⟨∅, false⟩ v = false) ∧
    (∀ v : Int, Field.matches ⟨∅, true⟩ v = true) := by
  have h1 : Field.String ⟨(∅ : Finset Int), false⟩ = ['*'] := by decide
  refine ⟨h1, rfl, ?_, ?_, ?_⟩
  · intro mn mx
    rw [h1, parseField, if_pos rfl]
  · intro v
    simp [Field.matches]
  · intro v
    simp [Field.matches]

end Cronrange
